import Mathlib

/-!
# Corral driver: configuration, runtime identifiers, phases and job chaining

A shallow embedding of `driver.go` (package `corral`).

* Go `int64` / `int` values are `Int`; `uint` values are `Nat`.  No arithmetic
  is performed on the configuration sizes, so no wrap-around can occur.
* The process-global random source `src` is a stream `Nat → Nat`: the `k`-th
  call of `src.Int63()` yields `src k`.
* A loop that Go does not bound (`RandomName`) carries a fuel argument and
  returns `none` when the fuel runs out before the loop condition fails.
* A `*Job` is an address into a memory of jobs (`Heap`), so that a job listed
  twice is one job; a nil pointer is `none`.
* `run` is embedded twice over: as the program order of the goroutine that
  executes it (`run`, `runJobs`), and, for the two phases of one job, as a
  transition system of that goroutine and the task goroutines it starts
  (`step`, `exec`), with the weighted semaphore and the wait groups as
  counters.  `runMapPhase_sound` ties the two together.
-/

namespace Corral

/-! ## Data model -/

/-- Go: `type config struct`, the configuration of a driver. -/
structure config where
  Inputs : List String
  SplitSize : Int
  MapBinSize : Int
  ReduceBinSize : Int
  MaxConcurrency : Int
  WorkingLocation : String
  Cleanup : Bool
deriving DecidableEq, Repr

/-- Modelled from the spec: the filesystem kinds behind `corfs.FileSystem`
(`LocalFileSystem` and `S3FileSystem` are the two implementations the tests of
package `corfs` name); the package itself is outside the embedded sources. -/
inductive FileSystem where
  | LocalFileSystem
  | S3FileSystem
deriving DecidableEq, Repr

/-- Modelled from the spec: `inputSplit`, a byte range of one input object
(filename, start offset, length); its declaration is outside the embedded
sources. -/
structure inputSplit where
  Filename : String
  StartOffset : Int
  Length : Int
deriving DecidableEq, Repr

/-- Modelled from the spec: the fields of `Job` that `driver.go` reads or
assigns (`intermediateBins`, `fileSystem`, `outputPath`, `config`, and the byte
counters); the declaration of `Job` is outside the embedded sources.
`fileSystem` is `none` while the Go field is still nil; `config` is a pointer
`*config` and `none` when it is nil.  The config behind the pointer is held by
value: the only write through it in `driver.go` is `*job.config = *d.config`,
which stores the same value whichever jobs share the pointer. -/
structure Job where
  intermediateBins : Nat
  fileSystem : Option FileSystem
  outputPath : String
  config : Option config
  bytesRead : Int
  bytesWritten : Int
deriving DecidableEq, Repr

/-- Go: a non-nil `*Job`, the address of a job. -/
abbrev JobPtr := Nat

/-- The jobs in memory: the job each address holds.  Two entries of a job
list that hold the same address are the same job. -/
abbrev Heap := JobPtr → Job

/-- The memory after the job at `p` was overwritten with `job`. -/
def heapSet (heap : Heap) (p : JobPtr) (job : Job) : Heap :=
  fun q => if q = p then job else heap q

/-- The executors `driver.go` installs: `localExecutor{}` in `NewDriver`,
the other two in `Main`. -/
inductive executor where
  | localExecutor
  | lambdaExecutor
  | whiskExecutor
deriving DecidableEq, Repr

/-- Go: `type Driver struct`.  `jobs` is `[]*Job`: a list of addresses, a nil
pointer being `none`.  The `Start time.Time` field is never read by the
embedded code and is left out. -/
structure Driver where
  jobs : List (Option JobPtr)
  config : config
  executor : executor
  runtimeID : String
deriving DecidableEq, Repr

/-- Go: `type Option func(*config)`, a configuration update. -/
abbrev DriverOption := config → config

/-! ## Options -/

/-- Go: `WithSplitSize`. -/
def WithSplitSize (s : Int) : DriverOption :=
  fun c => { c with SplitSize := s }

/-- Go: `WithMapBinSize`. -/
def WithMapBinSize (s : Int) : DriverOption :=
  fun c => { c with MapBinSize := s }

/-- Go: `WithReduceBinSize`. -/
def WithReduceBinSize (s : Int) : DriverOption :=
  fun c => { c with ReduceBinSize := s }

/-- Go: `WithWorkingLocation`. -/
def WithWorkingLocation (location : String) : DriverOption :=
  fun c => { c with WorkingLocation := location }

/-- Go: `WithInputs`. -/
def WithInputs (inputs : List String) : DriverOption :=
  fun c => { c with Inputs := c.Inputs ++ inputs }

/-! ## RandomName -/

/-- Go: `const letterBytes`. -/
def letterBytes : String := "abcdef0123456789-_"

/-- Go: `letterIdxBits`, 6 bits to represent a letter index. -/
def letterIdxBits : Nat := 6

/-- Go: `letterIdxMask`, all 1-bits, as many as `letterIdxBits`. -/
def letterIdxMask : Nat := 1 <<< letterIdxBits - 1

/-- Go: `letterIdxMax`, the number of letter indices fitting in 63 bits. -/
def letterIdxMax : Nat := 63 / letterIdxBits

/-- Go: `letterBytes[idx]`; only evaluated under the guard
`idx < len(letterBytes)`, so the default is never produced. -/
def letterAt (idx : Nat) : Char := letterBytes.data.getD idx 'a'

/-- The loop of `RandomName`.  State: the counter `i`, the bit cache `cache`,
the number `remain` of chunks left in the cache, the number `k` of values
already drawn from the source, and the contents `sb` of the string builder.
The loop condition `i >= 0` is tested first; one unit of fuel pays for one
execution of the body. -/
def RandomNameLoop (src : Nat → Nat) :
    Nat → Int → Nat → Nat → Nat → List Char → Option String
  | fuel, i, cache, remain, k, sb =>
    if i < 0 then some (String.mk sb)
    else
      match fuel with
      | 0 => none
      | fuel + 1 =>
        let cache1 := if remain = 0 then src k else cache
        let remain1 := if remain = 0 then letterIdxMax else remain
        let k1 := if remain = 0 then k + 1 else k
        let idx := cache1 &&& letterIdxMask
        let sb1 := if idx < letterBytes.length then sb ++ [letterAt idx] else sb
        let i1 := if idx < letterBytes.length then i - 1 else i
        RandomNameLoop src fuel i1 (cache1 >>> letterIdxBits) (remain1 - 1) k1 sb1

/-- Go: `RandomName`.  The loop starts with `i = 9`, the first source value in
the cache and `letterIdxMax` chunks remaining. -/
def RandomName (src : Nat → Nat) (fuel : Nat) : Option String :=
  RandomNameLoop src fuel 9 (src 0) letterIdxMax 1 []

/-- The `j`-th 6-bit chunk read by `RandomName`: chunk `j % 10` (from the low
end) of the source value number `j / 10`. -/
def chunk (src : Nat → Nat) (j : Nat) : Nat :=
  (src (j / letterIdxMax) >>> (letterIdxBits * (j % letterIdxMax))) &&& letterIdxMask

/-- The character class `[a-f0-9_-]`. -/
def runtimeIDChar (c : Char) : Bool :=
  ('a' ≤ c && c ≤ 'f') || ('0' ≤ c && c ≤ '9') || c == '_' || c == '-'

/-- The language of `^[a-f0-9_-]{10}$`. -/
def runtimeIDShape (s : String) : Bool :=
  s.length == 10 && s.data.all runtimeIDChar

/-! ## NewDriver -/

/-- Go: `NewDriver`.  `newConfig` is the configuration that `newConfig()`
loads from the settings; the runtime id is drawn first, so the constructor
returns only if `RandomName` does. -/
def NewDriver (newConfig : config) (src : Nat → Nat) (fuel : Nat)
    (job : Option JobPtr) (options : List DriverOption) : Option Driver :=
  match RandomName src fuel with
  | none => none
  | some id =>
    let c := options.foldl (fun c f => f c) newConfig
    let c1 := if c.SplitSize > c.MapBinSize then { c with SplitSize := c.MapBinSize } else c
    some { jobs := [job], config := c1, executor := executor.localExecutor, runtimeID := id }

/-- Go: `NewMultiStageDriver`: `NewDriver(nil, options...)` with the job list
replaced. -/
def NewMultiStageDriver (newConfig : config) (src : Nat → Nat) (fuel : Nat)
    (jobs : List (Option JobPtr)) (options : List DriverOption) : Option Driver :=
  match NewDriver newConfig src fuel none options with
  | none => none
  | some driver => some { driver with jobs := jobs }

/-- The chunk that the loop reads `j` iterations after a state with cache
`cache`, `remain` chunks left in it and `k` source values drawn. -/
def pending (src : Nat → Nat) (cache remain k j : Nat) : Nat :=
  if j < remain then (cache >>> (letterIdxBits * j)) &&& letterIdxMask
  else (src (k + (j - remain) / letterIdxMax)
          >>> (letterIdxBits * ((j - remain) % letterIdxMax))) &&& letterIdxMask

/-- The characters produced from the first `N` chunks of a chunk stream. -/
def lettersOf (g : Nat → Nat) (N : Nat) : List Char :=
  (((List.range N).map g).filter (fun idx => decide (idx < letterBytes.length))).map letterAt

/-! ## The driver loop (`run`)

`run` is executed by one goroutine.  Its embedding records, in program order,
what that goroutine does: the hand-off to a cloud runtime, the deployment, the
assignments to the fields of each job, the calls of the two phases with the
tasks each call dispatches (in dispatch order), and the call of `done`.  How
the dispatched tasks interleave, and when a phase returns, is the subject of
the phase machine below; `run` uses its summary: a phase returns once its
tasks have returned, except that a map phase with at least one bin and a
semaphore of capacity below 1 waits in its first `sem.Acquire` for ever.
Every task is taken to return, and only the fields that `run` assigns are
followed in the memory of jobs. -/

/-- What `run` consults outside `driver.go`: the cloud-runtime detection
(`runningInLambda`, `runningInWhisk`), whether the executor implements the
`platform` interface, the filesystem package (`corfs.InferFilesystem` and the
`Join` method of a filesystem) and the splitting and packing of inputs
(`job.inputSplits`, `packInputSplits`). -/
structure Env where
  runningInLambda : Bool
  runningInWhisk : Bool
  platform : executor → Bool
  InferFilesystem : String → FileSystem
  Join : FileSystem → String → String → String
  inputSplits : Job → List String → Int → List inputSplit
  packInputSplits : List inputSplit → Int → List (List inputSplit)

/-- One step of the goroutine that executes `run`.  The steps on a job carry
the index of the job in `d.jobs` and its address. -/
inductive Event where
  | lambdaStart
  | whiskStart
  | exit (code : Int)
  | Deploy
  | setFileSystem (idx : Nat) (job : JobPtr) (fs : FileSystem)
  | setOutputPath (idx : Nat) (job : JobPtr) (path : String)
  | setConfig (idx : Nat) (job : JobPtr) (c : config)
  | runMapPhase (jobNumber : Nat) (job : JobPtr) (inputs : List String)
  | RunMapper (jobNumber : Nat) (binID : Nat) (bin : List inputSplit)
  | runReducePhase (jobNumber : Nat) (job : JobPtr)
  | RunReducer (jobNumber : Nat) (binID : Nat)
  | done (idx : Nat) (job : JobPtr)
deriving DecidableEq, Repr

/-- How a call of `run`, or one iteration of its loop, ends: it runs to its
end, the process exits, a nil pointer or an empty slice is dereferenced, or a
map phase never returns. -/
inductive Outcome where
  | returned
  | exited (code : Int)
  | panicked
  | blocked
deriving DecidableEq, Repr

/-- The result of `run`: the steps taken, the memory of jobs as `run` leaves
it, and how the call ended. -/
structure RunResult where
  trace : List Event
  heap : Heap
  outcome : Outcome

/-- The result of one iteration of the loop of `run`: as for `run`, with the
inputs handed to the next iteration. -/
structure JobResult where
  trace : List Event
  heap : Heap
  outcome : Outcome
  inputs : List String

/-- Go: the head of `runMapPhase`: the bins to map, or `none` when there are
no input splits and the function returns before packing. -/
def mapBins (env : Env) (d : Driver) (job : Job) (inputs : List String) :
    Option (List (List inputSplit)) :=
  let inputSplits := env.inputSplits job inputs d.config.SplitSize
  if inputSplits.length = 0 then none
  else some (env.packInputSplits inputSplits d.config.MapBinSize)

/-- Go: the loop `for binID, bin := range inputBins` of `runMapPhase`: one
mapper per bin, with the position of the bin as its id. -/
def mapTasks (jobNumber : Nat) (inputBins : List (List inputSplit)) : List Event :=
  inputBins.enum.map (fun p => Event.RunMapper jobNumber p.1 p.2)

/-- Go: the loop `for binID := uint(0); binID < job.intermediateBins; binID++`
of `runReducePhase`: one reducer per intermediate bin. -/
def reduceTasks (jobNumber : Nat) (intermediateBins : Nat) : List Event :=
  (List.range intermediateBins).map (fun binID => Event.RunReducer jobNumber binID)

/-- Go: `Driver.runMapPhase`, as seen from `run`: the mappers that a call
dispatches, in dispatch order, and whether the call returns.  The semaphore is
created with capacity `MaxConcurrency`; with a bin to map and a capacity below
1 the first `sem.Acquire(context.Background(), 1)` never returns. -/
def runMapPhase (env : Env) (d : Driver) (job : Job) (jobNumber : Nat)
    (inputs : List String) : List Event × Bool :=
  match mapBins env d job inputs with
  | none => ([], true)
  | some inputBins =>
    if inputBins.length = 0 ∨ 1 ≤ d.config.MaxConcurrency then
      (mapTasks jobNumber inputBins, true)
    else ([], false)

/-- Go: `Driver.runReducePhase`, as seen from `run`: the reducers that a call
dispatches, in dispatch order. -/
def runReducePhase (job : Job) (jobNumber : Nat) : List Event :=
  reduceTasks jobNumber job.intermediateBins

/-- Go: `Driver.runOnCloudPlatfrom`: the steps taken and the value returned. -/
def runOnCloudPlatfrom (env : Env) : List Event × Bool :=
  if env.runningInLambda then ([Event.lambdaStart], true)
  else if env.runningInWhisk then ([Event.whiskStart], true)
  else ([], false)

/-- Go: `fmt.Sprintf("job%d", idx)` for an index `idx >= 0`. -/
def jobDirName (idx : Nat) : String := "job" ++ toString idx

/-- Go: the body of the loop `for idx, job := range d.jobs` of `run`, for the
job pointer `job` at index `idx` with inputs `inputs`.  `inputs[0]` panics on
an empty slice and `job.fileSystem = ...` on a nil `job`; the two assignments
to `fileSystem` and `outputPath` come before `*job.config = *d.config`, which
panics on a nil `job.config`; then come the two phases, the inputs of the next
job and `job.done()`. -/
def runJob (env : Env) (d : Driver) (idx : Nat) (inputs : List String)
    (job : Option JobPtr) (heap : Heap) : JobResult :=
  match inputs, job with
  | [], _ => { trace := [], heap := heap, outcome := Outcome.panicked, inputs := [] }
  | _ :: _, none => { trace := [], heap := heap, outcome := Outcome.panicked, inputs := [] }
  | input0 :: _, some p =>
    let fs := env.InferFilesystem input0
    let heap1 := heapSet heap p { heap p with fileSystem := some fs }
    let jobWorkingLoc :=
      if d.jobs.length > 1 then env.Join fs d.config.WorkingLocation (jobDirName idx)
      else d.config.WorkingLocation
    let heap2 := heapSet heap1 p { heap1 p with outputPath := jobWorkingLoc }
    match (heap2 p).config with
    | none =>
      { trace := [Event.setFileSystem idx p fs, Event.setOutputPath idx p jobWorkingLoc]
        heap := heap2, outcome := Outcome.panicked, inputs := [] }
    | some _ =>
      let heap3 := heapSet heap2 p { heap2 p with config := some d.config }
      let mapped := runMapPhase env d (heap3 p) idx inputs
      if mapped.2 then
        { trace :=
            [Event.setFileSystem idx p fs, Event.setOutputPath idx p jobWorkingLoc,
              Event.setConfig idx p d.config, Event.runMapPhase idx p inputs]
            ++ mapped.1
            ++ [Event.runReducePhase idx p]
            ++ runReducePhase (heap3 p) idx
            ++ [Event.done idx p]
          heap := heap3
          outcome := Outcome.returned
          inputs := [env.Join fs jobWorkingLoc "output-*"] }
      else
        { trace :=
            [Event.setFileSystem idx p fs, Event.setOutputPath idx p jobWorkingLoc,
              Event.setConfig idx p d.config, Event.runMapPhase idx p inputs]
            ++ mapped.1
          heap := heap3
          outcome := Outcome.blocked
          inputs := [] }

/-- Go: the loop `for idx, job := range d.jobs` of `run`, from index `idx` on,
with `inputs` the inputs of the job at `idx`: the next iteration is entered
when the body has run to its end. -/
def runJobs (env : Env) (d : Driver) :
    Nat → List String → List (Option JobPtr) → Heap → RunResult
  | _, _, [], heap => { trace := [], heap := heap, outcome := Outcome.returned }
  | idx, inputs, job :: rest, heap =>
    let body := runJob env d idx inputs job heap
    if body.outcome = Outcome.returned then
      let next := runJobs env d (idx + 1) body.inputs rest body.heap
      { trace := body.trace ++ next.trace, heap := next.heap, outcome := next.outcome }
    else
      { trace := body.trace, heap := body.heap, outcome := body.outcome }

/-- Go: `Driver.run`, on the memory of jobs `heap`. -/
def run (env : Env) (heap : Heap) (d : Driver) : RunResult :=
  let cloud := runOnCloudPlatfrom env
  if cloud.2 then
    { trace := cloud.1 ++ [Event.exit (-10)], heap := heap, outcome := Outcome.exited (-10) }
  else
    let deploy := if env.platform d.executor then [Event.Deploy] else []
    if d.config.Inputs.length = 0 then
      { trace := cloud.1 ++ deploy, heap := heap, outcome := Outcome.returned }
    else
      let r := runJobs env d 0 d.config.Inputs d.jobs heap
      { r with trace := cloud.1 ++ deploy ++ r.trace }

/-- The job an event belongs to, if any. -/
def Event.jobIndex : Event → Option Nat
  | Event.setFileSystem idx _ _ => some idx
  | Event.setOutputPath idx _ _ => some idx
  | Event.setConfig idx _ _ => some idx
  | Event.runMapPhase idx _ _ => some idx
  | Event.RunMapper idx _ _ => some idx
  | Event.runReducePhase idx _ => some idx
  | Event.RunReducer idx _ => some idx
  | Event.done idx _ => some idx
  | _ => none

/-- Whether an event dispatches a task. -/
def Event.isTask : Event → Bool
  | Event.RunMapper _ _ _ => true
  | Event.RunReducer _ _ => true
  | _ => false

/-- Whether an event assigns a field of a job or calls its `done`. -/
def Event.touchesJob : Event → Bool
  | Event.setFileSystem _ _ _ => true
  | Event.setOutputPath _ _ _ => true
  | Event.setConfig _ _ _ => true
  | Event.done _ _ => true
  | _ => false

/-- The working location `run` computes for the job at `idx`, given the
filesystem inferred for it. -/
def jobWorkingLoc (env : Env) (d : Driver) (idx : Nat) (fs : FileSystem) : String :=
  if d.jobs.length > 1 then env.Join fs d.config.WorkingLocation (jobDirName idx)
  else d.config.WorkingLocation

/-- A job after the three assignments of the iteration at `idx`. -/
def preparedJob (env : Env) (d : Driver) (idx : Nat) (input0 : String) (job : Job) : Job :=
  { job with
    fileSystem := some (env.InferFilesystem input0)
    outputPath := jobWorkingLoc env d idx (env.InferFilesystem input0)
    config := some d.config }

/-- A job after the first two assignments of the iteration at `idx`. -/
def assignedJob (env : Env) (d : Driver) (idx : Nat) (input0 : String) (job : Job) : Job :=
  { job with
    fileSystem := some (env.InferFilesystem input0)
    outputPath := jobWorkingLoc env d idx (env.InferFilesystem input0) }

/-- The inputs `run` hands to the job after the one at `idx`. -/
def nextInputs (env : Env) (d : Driver) (idx : Nat) (input0 : String) : List String :=
  [env.Join (env.InferFilesystem input0)
    (jobWorkingLoc env d idx (env.InferFilesystem input0)) "output-*"]

/-- The two assignments with which every iteration on a job begins. -/
def jobAssign (env : Env) (d : Driver) (idx : Nat) (p : JobPtr) (input0 : String) :
    List Event :=
  [Event.setFileSystem idx p (env.InferFilesystem input0),
    Event.setOutputPath idx p (jobWorkingLoc env d idx (env.InferFilesystem input0))]

/-- The steps of one iteration of the loop of `run` up to and including the
map phase, for the job `job` at address `p` as the iteration finds it. -/
def jobStart (env : Env) (d : Driver) (idx : Nat) (p : JobPtr) (input0 : String)
    (inputs : List String) (job : Job) : List Event :=
  jobAssign env d idx p input0
  ++ [Event.setConfig idx p d.config, Event.runMapPhase idx p inputs]
  ++ (runMapPhase env d (preparedJob env d idx input0 job) idx inputs).1

/-- The steps of one complete iteration of the loop of `run`: the three
assignments, the map phase with its mappers, the reduce phase with its
reducers, and `done`. -/
def jobBlock (env : Env) (d : Driver) (idx : Nat) (p : JobPtr) (input0 : String)
    (inputs : List String) (job : Job) : List Event :=
  jobStart env d idx p input0 inputs job
  ++ [Event.runReducePhase idx p]
  ++ runReducePhase (preparedJob env d idx input0 job) idx
  ++ [Event.done idx p]

/-- Whether every entry of a job list is a job with a config: no nil `*Job`
and no nil `job.config`. -/
def validJobs (heap : Heap) (jobs : List (Option JobPtr)) : Bool :=
  jobs.all (fun job =>
    match job with
    | none => false
    | some p => (heap p).config.isSome)

/-- Modelled from the spec: a path join that puts one `/` between its
arguments, as in the example `/w` and `job0` giving `/w/job0`; the `Join`
methods of the filesystems are outside the embedded sources. -/
def slashJoin (a b : String) : String := a ++ "/" ++ b

/-! ## The two phases of one job as a transition system

`runMapPhase` followed by `runReducePhase`, with the goroutines they start.
A schedule is a list of actors; each entry lets that actor take its next
step.  A step that is blocked (`sem.Acquire` without a free unit, `wg.Wait`
with a positive counter) or does not exist yields `none`. -/

/-- Progress of one task goroutine: created by `go`, inside
`RunMapper`/`RunReducer`, back from it (error logged), after `sem.Release(1)`,
and after `wg.Done()`.  Reducers hold no semaphore unit and go from `returned`
straight to `done`. -/
inductive TaskPhase where
  | spawned
  | running
  | returned
  | released
  | done
deriving DecidableEq, Repr

/-- A goroutine started by `runMapPhase`, with its arguments `bID` and `b`. -/
structure MapTask where
  bID : Nat
  b : List inputSplit
  phase : TaskPhase
deriving DecidableEq, Repr

/-- A goroutine started by `runReducePhase`, with its argument `bID`. -/
structure ReduceTask where
  bID : Nat
  phase : TaskPhase
deriving DecidableEq, Repr

/-- Where the goroutine that called `runMapPhase` stands. -/
inductive PC where
  | mapAcquire (binID : Nat)
  | mapSpawn (binID : Nat)
  | mapWait
  | reduceSpawn (binID : Nat)
  | reduceWait
  | finished
deriving DecidableEq, Repr

/-- What the two phases of one job depend on: the job number, the capacity
given to the semaphore, the bins of the map phase (`none` when there are no
input splits), `job.intermediateBins`, and whether the task of a given bin
returns an error. -/
structure PhaseSetup where
  jobNumber : Nat
  MaxConcurrency : Int
  inputBins : Option (List (List inputSplit))
  intermediateBins : Nat
  mapErr : Nat → Bool
  reduceErr : Nat → Bool

/-- The bins the map loop ranges over. -/
def PhaseSetup.bins (P : PhaseSetup) : List (List inputSplit) :=
  P.inputBins.getD []

/-- A message written by `log.Errorf` in a task goroutine. -/
inductive ErrorLog where
  | mapper (bID : Nat)
  | reducer (bID : Nat)
deriving DecidableEq, Repr

/-- State of the two phases: the position of the calling goroutine, the units
of the semaphore in use, the counters of the two wait groups, the task
goroutines in the order they were started, the calls of `RunMapper` and
`RunReducer` in the order they began, and the errors logged. -/
structure PhaseState where
  pc : PC
  semCur : Int
  wgMap : Nat
  wgReduce : Nat
  mappers : List MapTask
  reducers : List ReduceTask
  calls : List Event
  errors : List ErrorLog
deriving DecidableEq, Repr

/-- Who takes the next step. -/
inductive Actor where
  | main
  | mapper (j : Nat)
  | reducer (j : Nat)
deriving DecidableEq, Repr

/-- The state in which `runMapPhase` is entered; without input splits it
returns at once and `runReducePhase` is entered. -/
def PhaseState.init (P : PhaseSetup) : PhaseState :=
  { pc := match P.inputBins with
      | none => PC.reduceSpawn 0
      | some _ => PC.mapAcquire 0
    semCur := 0, wgMap := 0, wgReduce := 0, mappers := [], reducers := [],
    calls := [], errors := [] }

/-- One step of the calling goroutine.  `mapAcquire k` is the head of the map
loop: with a bin left it is `sem.Acquire(ctx, 1)`, which needs a free unit;
`mapSpawn k` is `wg.Add(1)` and the `go` statement; `mapWait` and `reduceWait`
are `wg.Wait()`; `reduceSpawn k` is the head of the reduce loop. -/
def stepMain (P : PhaseSetup) (s : PhaseState) : Option PhaseState :=
  match s.pc with
  | PC.mapAcquire k =>
    if k < P.bins.length then
      if 1 ≤ P.MaxConcurrency - s.semCur then
        some { s with pc := PC.mapSpawn k, semCur := s.semCur + 1 }
      else none
    else some { s with pc := PC.mapWait }
  | PC.mapSpawn k =>
    match P.bins[k]? with
    | some bin =>
      some { s with pc := PC.mapAcquire (k + 1), wgMap := s.wgMap + 1,
                    mappers := s.mappers ++ [{ bID := k, b := bin, phase := TaskPhase.spawned }] }
    | none => none
  | PC.mapWait =>
    if s.wgMap = 0 then some { s with pc := PC.reduceSpawn 0 } else none
  | PC.reduceSpawn k =>
    if k < P.intermediateBins then
      some { s with pc := PC.reduceSpawn (k + 1), wgReduce := s.wgReduce + 1,
                    reducers := s.reducers ++ [{ bID := k, phase := TaskPhase.spawned }] }
    else some { s with pc := PC.reduceWait }
  | PC.reduceWait =>
    if s.wgReduce = 0 then some { s with pc := PC.finished } else none
  | PC.finished => none

/-- One step of the `j`-th goroutine started by `runMapPhase`: call
`RunMapper`; return from it and log an error if there is one; run the deferred
`bar.Increment()` and `sem.Release(1)`; run the deferred `wg.Done()`. -/
def stepMapper (P : PhaseSetup) (s : PhaseState) (j : Nat) : Option PhaseState :=
  match s.mappers[j]? with
  | none => none
  | some t =>
    match t.phase with
    | TaskPhase.spawned =>
      some { s with mappers := s.mappers.set j { t with phase := TaskPhase.running },
                    calls := s.calls ++ [Event.RunMapper P.jobNumber t.bID t.b] }
    | TaskPhase.running =>
      some { s with mappers := s.mappers.set j { t with phase := TaskPhase.returned },
                    errors := if P.mapErr t.bID then s.errors ++ [ErrorLog.mapper t.bID]
                              else s.errors }
    | TaskPhase.returned =>
      some { s with mappers := s.mappers.set j { t with phase := TaskPhase.released },
                    semCur := s.semCur - 1 }
    | TaskPhase.released =>
      some { s with mappers := s.mappers.set j { t with phase := TaskPhase.done },
                    wgMap := s.wgMap - 1 }
    | TaskPhase.done => none

/-- One step of the `j`-th goroutine started by `runReducePhase`: call
`RunReducer`; return from it and log an error if there is one; run the
deferred `bar.Increment()` and `wg.Done()`. -/
def stepReducer (P : PhaseSetup) (s : PhaseState) (j : Nat) : Option PhaseState :=
  match s.reducers[j]? with
  | none => none
  | some t =>
    match t.phase with
    | TaskPhase.spawned =>
      some { s with reducers := s.reducers.set j { t with phase := TaskPhase.running },
                    calls := s.calls ++ [Event.RunReducer P.jobNumber t.bID] }
    | TaskPhase.running =>
      some { s with reducers := s.reducers.set j { t with phase := TaskPhase.returned },
                    errors := if P.reduceErr t.bID then s.errors ++ [ErrorLog.reducer t.bID]
                              else s.errors }
    | TaskPhase.returned =>
      some { s with reducers := s.reducers.set j { t with phase := TaskPhase.done },
                    wgReduce := s.wgReduce - 1 }
    | TaskPhase.released => none
    | TaskPhase.done => none

/-- One step of the system. -/
def step (P : PhaseSetup) (s : PhaseState) : Actor → Option PhaseState
  | Actor.main => stepMain P s
  | Actor.mapper j => stepMapper P s j
  | Actor.reducer j => stepReducer P s j

/-- Run a schedule; `none` if it schedules an actor that cannot step. -/
def exec (P : PhaseSetup) (s : PhaseState) : List Actor → Option PhaseState
  | [] => some s
  | a :: sched =>
    match step P s a with
    | none => none
    | some s1 => exec P s1 sched

/-- The states the two phases can be in. -/
def Reachable (P : PhaseSetup) (s : PhaseState) : Prop :=
  ∃ sched, exec P (PhaseState.init P) sched = some s

/-- Calls of `RunMapper` that have begun and not yet returned. -/
def PhaseState.mappersInFlight (s : PhaseState) : Nat :=
  s.mappers.countP (fun t => t.phase == TaskPhase.running)

/-- Calls of `RunReducer` that have begun and not yet returned. -/
def PhaseState.reducersInFlight (s : PhaseState) : Nat :=
  s.reducers.countP (fun t => t.phase == TaskPhase.running)

/-- Whether a task goroutine holds the unit acquired for it. -/
def TaskPhase.holdsUnit : TaskPhase → Bool
  | TaskPhase.spawned => true
  | TaskPhase.running => true
  | TaskPhase.returned => true
  | _ => false

/-- Whether the task's call has begun. -/
def TaskPhase.started : TaskPhase → Bool
  | TaskPhase.spawned => false
  | _ => true

/-- Whether the task's call has returned. -/
def TaskPhase.completed : TaskPhase → Bool
  | TaskPhase.spawned => false
  | TaskPhase.running => false
  | _ => true

/-- Units acquired by the calling goroutine for a task it has not started yet. -/
def PC.holdsUnit : PC → Int
  | PC.mapSpawn _ => 1
  | _ => 0

/-- The setup of the phases of the job at `jobNumber` in a run of `d`. -/
def phaseSetup (env : Env) (d : Driver) (job : Job) (jobNumber : Nat)
    (inputs : List String) (mapErr reduceErr : Nat → Bool) : PhaseSetup :=
  { jobNumber := jobNumber, MaxConcurrency := d.config.MaxConcurrency,
    inputBins := mapBins env d job inputs, intermediateBins := job.intermediateBins,
    mapErr := mapErr, reduceErr := reduceErr }

/-- The number of mapper goroutines created when the calling goroutine is at
a given position, for `nb` bins. -/
def PC.mappersStarted (nb : Nat) : PC → Nat
  | PC.mapAcquire k => k
  | PC.mapSpawn k => k
  | _ => nb

/-- The number of reducer goroutines created when the calling goroutine is at
a given position, for `r` intermediate bins. -/
def PC.reducersStarted (r : Nat) : PC → Nat
  | PC.mapAcquire _ => 0
  | PC.mapSpawn _ => 0
  | PC.mapWait => 0
  | PC.reduceSpawn k => k
  | _ => r

/-- The positions the loops can be at, for `nb` bins and `r` intermediate
bins. -/
def PC.valid (nb r : Nat) : PC → Prop
  | PC.mapAcquire k => k ≤ nb
  | PC.mapSpawn k => k < nb
  | PC.reduceSpawn k => k ≤ r
  | _ => True

/-- Whether `runMapPhase` has returned. -/
def PC.inReduce : PC → Bool
  | PC.reduceSpawn _ => true
  | PC.reduceWait => true
  | PC.finished => true
  | _ => false

/-- The steps a mapper goroutine still has to take. -/
def TaskPhase.mapperSteps : TaskPhase → Nat
  | TaskPhase.spawned => 4
  | TaskPhase.running => 3
  | TaskPhase.returned => 2
  | TaskPhase.released => 1
  | TaskPhase.done => 0

/-- The steps a reducer goroutine still has to take. -/
def TaskPhase.reducerSteps : TaskPhase → Nat
  | TaskPhase.spawned => 3
  | TaskPhase.running => 2
  | TaskPhase.returned => 1
  | TaskPhase.released => 0
  | TaskPhase.done => 0

/-- The steps still to be taken by the calling goroutine and by the
goroutines it has yet to start, for `nb` bins and `r` intermediate bins. -/
def PC.steps (nb r : Nat) : PC → Nat
  | PC.mapAcquire k => (nb - k) * 6 + 2 + (r * 4 + 2)
  | PC.mapSpawn k => (nb - k - 1) * 6 + 5 + 2 + (r * 4 + 2)
  | PC.mapWait => 1 + (r * 4 + 2)
  | PC.reduceSpawn k => (r - k) * 4 + 2
  | PC.reduceWait => 1
  | PC.finished => 0

/-- The number of steps after which the two phases have returned and every
goroutine has ended. -/
def PhaseState.remaining (P : PhaseSetup) (s : PhaseState) : Nat :=
  s.pc.steps P.bins.length P.intermediateBins
    + (s.mappers.map (fun t => t.phase.mapperSteps)).sum
    + (s.reducers.map (fun t => t.phase.reducerSteps)).sum

/-- The invariant of the two phases: the goroutines created match the
position of the loops and carry the arguments of their bins; the semaphore
counts the mappers that have not released their unit, plus the unit acquired
for a mapper about to be started; each wait group counts the goroutines that
have not called `Done`; the reduce phase is entered with every mapper done;
each call logged belongs to a goroutine that has begun its call. -/
structure Inv (P : PhaseSetup) (s : PhaseState) : Prop where
  lenM : s.mappers.length = s.pc.mappersStarted P.bins.length
  lenR : s.reducers.length = s.pc.reducersStarted P.intermediateBins
  valid : s.pc.valid P.bins.length P.intermediateBins
  sem : s.semCur = (s.mappers.countP (fun t => t.phase.holdsUnit) : Int) + s.pc.holdsUnit
  wgM : s.wgMap = s.mappers.countP (fun t => t.phase != TaskPhase.done)
  wgR : s.wgReduce = s.reducers.countP (fun t => t.phase != TaskPhase.done)
  mapsDone : s.pc.inReduce = true → ∀ t ∈ s.mappers, t.phase = TaskPhase.done
  finDone : s.pc = PC.finished → ∀ t ∈ s.reducers, t.phase = TaskPhase.done
  redPhase : ∀ t ∈ s.reducers, t.phase ≠ TaskPhase.released
  argsM : s.mappers.map (fun t => (t.bID, t.b)) = P.bins.enum.take s.mappers.length
  argsR : s.reducers.map (fun t => t.bID) = List.range s.reducers.length
  calls : ∀ e, s.calls.count e
      = s.mappers.countP
          (fun t => t.phase.started && (Event.RunMapper P.jobNumber t.bID t.b == e))
        + s.reducers.countP
          (fun t => t.phase.started && (Event.RunReducer P.jobNumber t.bID == e))
  cap : 0 ≤ P.MaxConcurrency → s.semCur ≤ P.MaxConcurrency

/-! ## Concrete inputs -/

/-- A base configuration whose split size exceeds its bin size. -/
def witnessConfig : config :=
  { Inputs := [], SplitSize := 100, MapBinSize := 50, ReduceBinSize := 7,
    MaxConcurrency := 4, WorkingLocation := "/w", Cleanup := false }

/-- A local process: no cloud runtime, only the local executor is not a
platform, every path is on the local filesystem, paths are joined with a
slash, every input is one split of 100 bytes and every split a bin of its
own. -/
def exampleEnv : Env :=
  { runningInLambda := false, runningInWhisk := false,
    platform := fun e => e != executor.localExecutor,
    InferFilesystem := fun _ => FileSystem.LocalFileSystem,
    Join := fun _ a b => slashJoin a b,
    inputSplits := fun _ inputs _ =>
      inputs.map (fun f => { Filename := f, StartOffset := 0, Length := 100 }),
    packInputSplits := fun splits _ => splits.map (fun x => [x]) }

/-- A configuration with one input, four tasks at a time and working
location `/w`. -/
def exampleConfig : config :=
  { Inputs := ["in"], SplitSize := 1024, MapBinSize := 1024, ReduceBinSize := 512,
    MaxConcurrency := 4, WorkingLocation := "/w", Cleanup := false }

/-- A fresh job with one intermediate bin and an empty config. -/
def exampleJob : Job :=
  { intermediateBins := 1, fileSystem := none, outputPath := "",
    config := some { Inputs := [], SplitSize := 0, MapBinSize := 0, ReduceBinSize := 0,
                     MaxConcurrency := 0, WorkingLocation := "", Cleanup := false },
    bytesRead := 0, bytesWritten := 0 }

/-- A memory in which every address holds a fresh job. -/
def exampleHeap : Heap := fun _ => exampleJob

/-- A driver of two jobs `[J0, J1]`, at the addresses 0 and 1. -/
def exampleDriver : Driver :=
  { jobs := [some 0, some 1], config := exampleConfig,
    executor := executor.localExecutor, runtimeID := "aaaaaaaaaa" }

/-- The driver of two jobs without inputs. -/
def exampleDriverNoInputs : Driver :=
  { exampleDriver with config := { exampleConfig with Inputs := [] } }

/-- The phases of a job with two bins, two intermediate bins and a semaphore
of capacity 1; the mapper of bin 0 returns an error. -/
def examplePhases : PhaseSetup :=
  { jobNumber := 0, MaxConcurrency := 1,
    inputBins := some [[{ Filename := "a", StartOffset := 0, Length := 100 }],
                       [{ Filename := "b", StartOffset := 0, Length := 100 }]],
    intermediateBins := 2, mapErr := fun bID => bID == 0, reduceErr := fun _ => false }

/-- The same phases with a semaphore of capacity 0. -/
def examplePhasesZero : PhaseSetup :=
  { examplePhases with MaxConcurrency := 0 }

/-- The phases of a job without input splits, with two intermediate bins and
`MaxConcurrency = 1`. -/
def exampleReducePhases : PhaseSetup :=
  { jobNumber := 0, MaxConcurrency := 1, inputBins := none, intermediateBins := 2,
    mapErr := fun _ => false, reduceErr := fun _ => false }

/-- The map phase after the first mapper was started and has begun its call. -/
def exampleMapState : PhaseState :=
  { pc := PC.mapAcquire 1, semCur := 1, wgMap := 1, wgReduce := 0,
    mappers := [{ bID := 0, b := [{ Filename := "a", StartOffset := 0, Length := 100 }],
                  phase := TaskPhase.running }],
    reducers := [],
    calls := [Event.RunMapper 0 0 [{ Filename := "a", StartOffset := 0, Length := 100 }]],
    errors := [] }

/-- A schedule that runs both mappers one after the other and then starts the
first reducer. -/
def exampleSchedule : List Actor :=
  [Actor.main, Actor.main, Actor.mapper 0, Actor.mapper 0, Actor.mapper 0, Actor.mapper 0,
   Actor.main, Actor.main, Actor.mapper 1, Actor.mapper 1, Actor.mapper 1, Actor.mapper 1,
   Actor.main, Actor.main, Actor.main, Actor.reducer 0]

/-- The state the example schedule leads to. -/
def exampleReduceState : PhaseState :=
  { pc := PC.reduceSpawn 1, semCur := 0, wgMap := 0, wgReduce := 1,
    mappers := [{ bID := 0, b := [{ Filename := "a", StartOffset := 0, Length := 100 }],
                  phase := TaskPhase.done },
                { bID := 1, b := [{ Filename := "b", StartOffset := 0, Length := 100 }],
                  phase := TaskPhase.done }],
    reducers := [{ bID := 0, phase := TaskPhase.running }],
    calls := [Event.RunMapper 0 0 [{ Filename := "a", StartOffset := 0, Length := 100 }],
              Event.RunMapper 0 1 [{ Filename := "b", StartOffset := 0, Length := 100 }],
              Event.RunReducer 0 0],
    errors := [ErrorLog.mapper 0] }
/-! ## Facts about RandomName -/

theorem letterIdxMask_eq : letterIdxMask = 63 := by decide

theorem letterIdxMax_eq : letterIdxMax = 10 := by decide

theorem letterBytes_length : letterBytes.length = 18 := by decide

theorem letterAt_runtimeIDChar (idx : Nat) (h : idx < 18) :
    runtimeIDChar (letterAt idx) = true := by
  interval_cases idx <;> decide

theorem pending_zero (src : Nat → Nat) (cache remain k : Nat) :
    pending src cache remain k 0
      = (if remain = 0 then src k else cache) &&& letterIdxMask := by
  unfold pending
  by_cases h : remain = 0
  · subst h
    simp [letterIdxMax_eq]
  · have : 0 < remain := Nat.pos_of_ne_zero h
    simp [h, this]

theorem pending_succ (src : Nat → Nat) (cache remain k j : Nat) (hr : remain ≤ 10) :
    pending src cache remain k (j + 1)
      = pending src ((if remain = 0 then src k else cache) >>> letterIdxBits)
          ((if remain = 0 then letterIdxMax else remain) - 1)
          (if remain = 0 then k + 1 else k) j := by
  unfold pending
  simp only [letterIdxMax_eq, letterIdxBits]
  by_cases h : remain = 0
  · subst h
    simp only [if_true, Nat.not_lt_zero, if_false, Nat.sub_zero]
    by_cases hj : j < 9
    · have h1 : (j + 1) / 10 = 0 := by omega
      have h2 : (j + 1) % 10 = j + 1 := by omega
      have h3 : j < 10 - 1 := by omega
      rw [if_pos h3, h1, h2, ← Nat.shiftRight_add]
      congr 2
      omega
    · have h1 : (j + 1) / 10 = 1 + (j - 9) / 10 := by omega
      have h2 : (j + 1) % 10 = (j - 9) % 10 := by omega
      have h3 : ¬ j < 10 - 1 := by omega
      rw [if_neg h3, h1, h2]
      have h4 : j - (10 - 1) = j - 9 := by omega
      rw [h4, Nat.add_assoc]
  · simp only [h, if_false]
    by_cases hj : j + 1 < remain
    · have h3 : j < remain - 1 := by omega
      rw [if_pos hj, if_pos h3, ← Nat.shiftRight_add]
      congr 2
      omega
    · have h3 : ¬ j < remain - 1 := by omega
      rw [if_neg hj, if_neg h3]
      have h4 : j + 1 - remain = j - (remain - 1) := by omega
      rw [h4]

theorem pending_init (src : Nat → Nat) (j : Nat) :
    pending src (src 0) letterIdxMax 1 j = chunk src j := by
  unfold pending chunk
  simp only [letterIdxMax_eq]
  by_cases hj : j < 10
  · have h1 : j / 10 = 0 := by omega
    have h2 : j % 10 = j := by omega
    rw [if_pos hj, h1, h2]
  · have h1 : 1 + (j - 10) / 10 = j / 10 := by omega
    have h2 : (j - 10) % 10 = j % 10 := by omega
    rw [if_neg hj, h1, h2]

theorem lettersOf_succ (g : Nat → Nat) (N : Nat) :
    lettersOf g (N + 1)
      = (if g 0 < letterBytes.length then [letterAt (g 0)] else [])
          ++ lettersOf (fun j => g (j + 1)) N := by
  unfold lettersOf
  rw [List.range_succ_eq_map]
  by_cases h : g 0 < letterBytes.length
  · simp [h, List.filter_cons, Function.comp_def]
  · simp [h, List.filter_cons, Function.comp_def]

theorem RandomNameLoop_spec (src : Nat → Nat) :
    ∀ (fuel : Nat) (i : Int) (cache remain k : Nat) (sb : List Char) (s : String),
      RandomNameLoop src fuel i cache remain k sb = some s → -1 ≤ i → remain ≤ 10 →
      ∃ N, s.data = sb ++ lettersOf (pending src cache remain k) N
        ∧ (s.data.length : Int) = sb.length + (i + 1) := by
  intro fuel
  induction fuel with
  | zero =>
    intro i cache remain k sb s h hi _
    unfold RandomNameLoop at h
    by_cases hneg : i < 0
    · simp only [hneg, if_true, Option.some.injEq] at h
      subst h
      refine ⟨0, by simp [lettersOf], ?_⟩
      have : i = -1 := by omega
      simp [this]
    · simp [hneg] at h
  | succ fuel ih =>
    intro i cache remain k sb s h hi hr
    unfold RandomNameLoop at h
    by_cases hneg : i < 0
    · simp only [hneg, if_true, Option.some.injEq] at h
      subst h
      refine ⟨0, by simp [lettersOf], ?_⟩
      have : i = -1 := by omega
      simp [this]
    · simp only [hneg, if_false] at h
      have hr1 : (if remain = 0 then letterIdxMax else remain) - 1 ≤ 10 := by
        by_cases h0 : remain = 0
        · simp [h0, letterIdxMax_eq]
        · simp only [h0, if_false]; omega
      have h0 := pending_zero src cache remain k
      have hs := pending_succ src cache remain k
      by_cases hidx : (if remain = 0 then src k else cache) &&& letterIdxMask
          < letterBytes.length
      · simp only [hidx, if_true] at h
        obtain ⟨N, hN, hlen⟩ := ih _ _ _ _ _ _ h (by omega) hr1
        refine ⟨N + 1, ?_, ?_⟩
        · rw [lettersOf_succ, h0, if_pos hidx, hN]
          have : (fun j => pending src cache remain k (j + 1))
              = pending src ((if remain = 0 then src k else cache) >>> letterIdxBits)
                  ((if remain = 0 then letterIdxMax else remain) - 1)
                  (if remain = 0 then k + 1 else k) := by
            funext j; exact hs j hr
          rw [this]
          simp
        · rw [hlen]
          simp
          omega
      · simp only [hidx, if_false] at h
        obtain ⟨N, hN, hlen⟩ := ih _ _ _ _ _ _ h hi hr1
        refine ⟨N + 1, ?_, ?_⟩
        · rw [lettersOf_succ, h0, if_neg hidx, hN]
          have : (fun j => pending src cache remain k (j + 1))
              = pending src ((if remain = 0 then src k else cache) >>> letterIdxBits)
                  ((if remain = 0 then letterIdxMax else remain) - 1)
                  (if remain = 0 then k + 1 else k) := by
            funext j; exact hs j hr
          rw [this]
          simp
        · exact hlen

theorem lettersOf_all (g : Nat → Nat) (N : Nat) :
    ∀ c ∈ lettersOf g N, runtimeIDChar c = true := by
  intro c hc
  unfold lettersOf at hc
  rw [List.mem_map] at hc
  obtain ⟨idx, hidx, rfl⟩ := hc
  rw [List.mem_filter] at hidx
  have : idx < 18 := by
    have := hidx.2
    rw [letterBytes_length] at this
    simpa using this
  exact letterAt_runtimeIDChar idx this

theorem RandomName_spec (src : Nat → Nat) (fuel : Nat) (s : String)
    (h : RandomName src fuel = some s) :
    s.length = 10 ∧ (∀ c ∈ s.data, runtimeIDChar c = true)
      ∧ ∃ N, s.data = lettersOf (chunk src) N := by
  unfold RandomName at h
  obtain ⟨N, hN, hlen⟩ :=
    RandomNameLoop_spec src fuel 9 (src 0) letterIdxMax 1 [] s h (by omega)
      (by rw [letterIdxMax_eq])
  have hfun : pending src (src 0) letterIdxMax 1 = chunk src := by
    funext j; exact pending_init src j
  rw [hfun] at hN
  simp only [List.nil_append] at hN
  refine ⟨?_, ?_, N, hN⟩
  · have : (s.data.length : Int) = 10 := by simpa using hlen
    show s.data.length = 10
    exact_mod_cast this
  · rw [hN]
    exact lettersOf_all _ _

theorem RandomNameLoop_returns (src : Nat → Nat) :
    ∀ (fuel : Nat) (i : Int) (cache remain k : Nat) (sb : List Char),
      remain ≤ 10 →
      i + 1 ≤ ((lettersOf (pending src cache remain k) fuel).length : Int) →
      (RandomNameLoop src fuel i cache remain k sb).isSome = true := by
  intro fuel
  induction fuel with
  | zero =>
    intro i cache remain k sb _ h
    unfold RandomNameLoop
    have : i < 0 := by
      simp [lettersOf] at h
      omega
    simp [this]
  | succ fuel ih =>
    intro i cache remain k sb hr h
    unfold RandomNameLoop
    by_cases hneg : i < 0
    · simp [hneg]
    · simp only [hneg, if_false]
      have hr1 : (if remain = 0 then letterIdxMax else remain) - 1 ≤ 10 := by
        by_cases h0 : remain = 0
        · simp [h0, letterIdxMax_eq]
        · simp only [h0, if_false]; omega
      have hfun : (fun j => pending src cache remain k (j + 1))
          = pending src ((if remain = 0 then src k else cache) >>> letterIdxBits)
              ((if remain = 0 then letterIdxMax else remain) - 1)
              (if remain = 0 then k + 1 else k) := by
        funext j; exact pending_succ src cache remain k j hr
      rw [lettersOf_succ, pending_zero, hfun] at h
      by_cases hidx : (if remain = 0 then src k else cache) &&& letterIdxMask
          < letterBytes.length
      · simp only [hidx, if_true]
        apply ih _ _ _ _ _ hr1
        rw [if_pos hidx] at h
        simp only [List.length_append, List.length_singleton] at h
        push_cast at h
        omega
      · simp only [hidx, if_false]
        apply ih _ _ _ _ _ hr1
        rw [if_neg hidx] at h
        simpa using h

/-- The call of `RandomName` returns as soon as the fuel covers ten chunks
below `len(letterBytes)`. -/
theorem RandomName_returns (src : Nat → Nat) (fuel : Nat)
    (h : 10 ≤ (lettersOf (chunk src) fuel).length) :
    (RandomName src fuel).isSome = true := by
  unfold RandomName
  apply RandomNameLoop_returns src fuel 9 (src 0) letterIdxMax 1 []
  · rw [letterIdxMax_eq]
  · have hfun : pending src (src 0) letterIdxMax 1 = chunk src := by
      funext j; exact pending_init src j
    rw [hfun]
    have : ((10 : Nat) : Int) ≤ ((lettersOf (chunk src) fuel).length : Int) := by
      exact_mod_cast h
    simpa using this

theorem NewDriver_config (newConfig : config) (src : Nat → Nat) (fuel : Nat)
    (job : Option JobPtr) (options : List DriverOption) (d : Driver)
    (h : NewDriver newConfig src fuel job options = some d) :
    d.config.SplitSize
        = min (options.foldl (fun c f => f c) newConfig).SplitSize
            (options.foldl (fun c f => f c) newConfig).MapBinSize
      ∧ d.config.MapBinSize = (options.foldl (fun c f => f c) newConfig).MapBinSize := by
  unfold NewDriver at h
  cases hid : RandomName src fuel with
  | none => simp [hid] at h
  | some id =>
    simp only [hid, Option.some.injEq] at h
    subst h
    by_cases hc : (options.foldl (fun c f => f c) newConfig).SplitSize
        > (options.foldl (fun c f => f c) newConfig).MapBinSize
    · rw [if_pos hc]
      exact ⟨(min_eq_right (le_of_lt hc)).symm, rfl⟩
    · rw [if_neg hc]
      exact ⟨(min_eq_left (not_lt.mp hc)).symm, rfl⟩

theorem NewMultiStageDriver_config (newConfig : config) (src : Nat → Nat) (fuel : Nat)
    (jobs : List (Option JobPtr)) (options : List DriverOption) (d : Driver)
    (h : NewMultiStageDriver newConfig src fuel jobs options = some d) :
    ∃ d0, NewDriver newConfig src fuel none options = some d0 ∧ d.config = d0.config := by
  unfold NewMultiStageDriver at h
  cases hd : NewDriver newConfig src fuel none options with
  | none => simp [hd] at h
  | some d0 =>
    simp only [hd, Option.some.injEq] at h
    subst h
    exact ⟨d0, rfl, rfl⟩

/-! ## Claims about construction -/

/-- C1: for every base configuration and every list of options, the config of
the driver returned by `NewDriver` or by `NewMultiStageDriver` has
`SplitSize ≤ MapBinSize`; with `s` and `m` the `SplitSize` and `MapBinSize`
after all options were applied in order, the resulting `SplitSize` is
`min s m` and the resulting `MapBinSize` is `m`. -/
theorem C1_config_normalised (newConfig : config) (src : Nat → Nat) (fuel : Nat)
    (job : Option JobPtr) (jobs : List (Option JobPtr)) (options : List DriverOption)
    (d : Driver)
    (h : NewDriver newConfig src fuel job options = some d
      ∨ NewMultiStageDriver newConfig src fuel jobs options = some d) :
    d.config.SplitSize ≤ d.config.MapBinSize
      ∧ d.config.SplitSize
          = min (options.foldl (fun c f => f c) newConfig).SplitSize
              (options.foldl (fun c f => f c) newConfig).MapBinSize
      ∧ d.config.MapBinSize = (options.foldl (fun c f => f c) newConfig).MapBinSize := by
  have key : d.config.SplitSize
        = min (options.foldl (fun c f => f c) newConfig).SplitSize
            (options.foldl (fun c f => f c) newConfig).MapBinSize
      ∧ d.config.MapBinSize = (options.foldl (fun c f => f c) newConfig).MapBinSize := by
    rcases h with h | h
    · exact NewDriver_config newConfig src fuel job options d h
    · obtain ⟨d0, hd0, hcfg⟩ := NewMultiStageDriver_config newConfig src fuel jobs options d h
      rw [hcfg]
      exact NewDriver_config newConfig src fuel none options d0 hd0
  refine ⟨?_, key.1, key.2⟩
  rw [key.1, key.2]
  exact min_le_right _ _

/-- C1 at a concrete call: options set the split size to 2048 and the bin size
to 1024; the driver is built with split size 1024 and bin size 1024. -/
theorem C1_config_normalised_witness :
    NewMultiStageDriver witnessConfig (fun _ => 0) 10 []
        [WithSplitSize 2048, WithMapBinSize 1024]
      = some { jobs := [],
               config := { witnessConfig with SplitSize := 1024, MapBinSize := 1024 },
               executor := executor.localExecutor, runtimeID := "aaaaaaaaaa" }
    ∧ (1024 : Int) ≤ 1024 :=
  ⟨by decide,
   (C1_config_normalised witnessConfig (fun _ => 0) 10 none []
      [WithSplitSize 2048, WithMapBinSize 1024]
      { jobs := [],
        config := { witnessConfig with SplitSize := 1024, MapBinSize := 1024 },
        executor := executor.localExecutor, runtimeID := "aaaaaaaaaa" }
      (Or.inr (by decide))).1⟩

/-- C2: whenever `RandomName` returns, its result has exactly 10 characters,
each one of `a-f`, `0-9`, `_` or `-` (it matches `^[a-f0-9_-]{10}$`); the
characters are, in order, `letterBytes[idx]` for the 6-bit chunks
`idx < len(letterBytes)` among the first `N` chunks of the source values, for
some `N`, and the chunks `idx >= len(letterBytes)` contribute no character. -/
theorem C2_RandomName_shape (src : Nat → Nat) (fuel : Nat) (s : String)
    (h : RandomName src fuel = some s) :
    s.length = 10
      ∧ (∀ c ∈ s.data, runtimeIDChar c = true)
      ∧ runtimeIDShape s = true
      ∧ ∃ N, s.data
          = (((List.range N).map (chunk src)).filter
              (fun idx => decide (idx < letterBytes.length))).map letterAt := by
  obtain ⟨hlen, hall, N, hN⟩ := RandomName_spec src fuel s h
  refine ⟨hlen, hall, ?_, N, hN⟩
  unfold runtimeIDShape
  simp only [Bool.and_eq_true, beq_iff_eq, List.all_eq_true]
  exact ⟨hlen, hall⟩

/-- C2 at a concrete source: every value is 74879, whose chunks are 63, 17,
18 and then zeros; the chunks 63 and 18 are skipped and the name is
`_aaaaaaa_a`. -/
theorem C2_RandomName_shape_witness :
    RandomName (fun _ => 74879) 14 = some "_aaaaaaa_a"
      ∧ runtimeIDShape "_aaaaaaa_a" = true :=
  ⟨by decide!,
   (C2_RandomName_shape (fun _ => 74879) 14 "_aaaaaaa_a" (by decide!)).2.2.1⟩

/-! ## The memory of jobs -/

theorem heapSet_same (heap : Heap) (p : JobPtr) (job : Job) : heapSet heap p job p = job := by
  simp [heapSet]

theorem heapSet_other (heap : Heap) (p q : JobPtr) (job : Job) (h : q ≠ p) :
    heapSet heap p job q = heap q := by
  simp [heapSet, h]

theorem heapSet_heapSet (heap : Heap) (p : JobPtr) (a b : Job) :
    heapSet (heapSet heap p a) p b = heapSet heap p b := by
  funext q
  by_cases h : q = p <;> simp [heapSet, h]

/-! ## One iteration of the loop of `run` -/

theorem runJob_nil_inputs (env : Env) (d : Driver) (idx : Nat) (job : Option JobPtr)
    (heap : Heap) :
    runJob env d idx [] job heap
      = { trace := [], heap := heap, outcome := Outcome.panicked, inputs := [] } := by
  cases job <;> rfl

theorem runJob_nil_job (env : Env) (d : Driver) (idx : Nat) (input0 : String)
    (inputs : List String) (heap : Heap) :
    runJob env d idx (input0 :: inputs) none heap
      = { trace := [], heap := heap, outcome := Outcome.panicked, inputs := [] } := rfl

theorem runJob_nil_config (env : Env) (d : Driver) (idx : Nat) (input0 : String)
    (inputs : List String) (p : JobPtr) (heap : Heap) (hcfg : (heap p).config = none) :
    runJob env d idx (input0 :: inputs) (some p) heap
      = { trace := jobAssign env d idx p input0
          heap := heapSet heap p (assignedJob env d idx input0 (heap p))
          outcome := Outcome.panicked, inputs := [] } := by
  simp only [runJob, heapSet_same, hcfg, heapSet_heapSet, jobAssign, assignedJob,
    jobWorkingLoc]

theorem runJob_blocked (env : Env) (d : Driver) (idx : Nat) (input0 : String)
    (inputs : List String) (p : JobPtr) (heap : Heap) (c : config)
    (hcfg : (heap p).config = some c)
    (hb : (runMapPhase env d (preparedJob env d idx input0 (heap p)) idx
      (input0 :: inputs)).2 = false) :
    runJob env d idx (input0 :: inputs) (some p) heap
      = { trace := jobStart env d idx p input0 (input0 :: inputs) (heap p)
          heap := heapSet heap p (preparedJob env d idx input0 (heap p))
          outcome := Outcome.blocked, inputs := [] } := by
  simp only [preparedJob, jobWorkingLoc] at hb
  simp only [runJob, heapSet_same, hcfg, heapSet_heapSet, hb, jobStart, jobAssign,
    preparedJob, jobWorkingLoc]
  simp

theorem runJob_complete (env : Env) (d : Driver) (idx : Nat) (input0 : String)
    (inputs : List String) (p : JobPtr) (heap : Heap) (c : config)
    (hcfg : (heap p).config = some c)
    (hb : (runMapPhase env d (preparedJob env d idx input0 (heap p)) idx
      (input0 :: inputs)).2 = true) :
    runJob env d idx (input0 :: inputs) (some p) heap
      = { trace := jobBlock env d idx p input0 (input0 :: inputs) (heap p)
          heap := heapSet heap p (preparedJob env d idx input0 (heap p))
          outcome := Outcome.returned, inputs := nextInputs env d idx input0 } := by
  simp only [preparedJob, jobWorkingLoc] at hb
  simp only [runJob, heapSet_same, hcfg, heapSet_heapSet, hb, jobBlock, jobStart, jobAssign,
    preparedJob, jobWorkingLoc, nextInputs]
  simp

theorem runMapPhase_returns (env : Env) (d : Driver) (job : Job) (jobNumber : Nat)
    (inputs : List String) (hc : 1 ≤ d.config.MaxConcurrency) :
    (runMapPhase env d job jobNumber inputs).2 = true := by
  unfold runMapPhase
  cases mapBins env d job inputs with
  | none => rfl
  | some inputBins => simp [hc]

theorem runMapPhase_events (env : Env) (d : Driver) (job : Job) (jobNumber : Nat)
    (inputs : List String) :
    ∀ e ∈ (runMapPhase env d job jobNumber inputs).1,
      ∃ binID bin, e = Event.RunMapper jobNumber binID bin := by
  intro e he
  unfold runMapPhase at he
  cases hb : mapBins env d job inputs with
  | none => simp [hb] at he
  | some inputBins =>
    simp only [hb] at he
    by_cases hret : inputBins.length = 0 ∨ 1 ≤ d.config.MaxConcurrency
    · rw [if_pos hret] at he
      simp only [mapTasks, List.mem_map] at he
      obtain ⟨p, _, rfl⟩ := he
      exact ⟨p.1, p.2, rfl⟩
    · rw [if_neg hret] at he
      simp at he

theorem runReducePhase_events (job : Job) (jobNumber : Nat) :
    ∀ e ∈ runReducePhase job jobNumber, ∃ binID, e = Event.RunReducer jobNumber binID := by
  intro e he
  simp only [runReducePhase, reduceTasks, List.mem_map] at he
  obtain ⟨b, _, rfl⟩ := he
  exact ⟨b, rfl⟩

/-- The events of one complete iteration, one by one. -/
theorem mem_jobBlock (env : Env) (d : Driver) (idx : Nat) (p : JobPtr) (input0 : String)
    (inputs : List String) (job : Job) (e : Event)
    (he : e ∈ jobBlock env d idx p input0 inputs job) :
    e = Event.setFileSystem idx p (env.InferFilesystem input0)
      ∨ e = Event.setOutputPath idx p (jobWorkingLoc env d idx (env.InferFilesystem input0))
      ∨ e = Event.setConfig idx p d.config
      ∨ e = Event.runMapPhase idx p inputs
      ∨ (∃ binID bin, e = Event.RunMapper idx binID bin)
      ∨ e = Event.runReducePhase idx p
      ∨ (∃ binID, e = Event.RunReducer idx binID)
      ∨ e = Event.done idx p := by
  unfold jobBlock jobStart jobAssign at he
  simp only [List.mem_append, List.mem_cons, List.mem_singleton, List.not_mem_nil,
    or_false] at he
  rcases he with (((((h | h) | h | h) | h) | h) | h) | h
  · exact Or.inl h
  · exact Or.inr (Or.inl h)
  · exact Or.inr (Or.inr (Or.inl h))
  · exact Or.inr (Or.inr (Or.inr (Or.inl h)))
  · exact Or.inr (Or.inr (Or.inr (Or.inr (Or.inl (runMapPhase_events _ _ _ _ _ e h)))))
  · exact Or.inr (Or.inr (Or.inr (Or.inr (Or.inr (Or.inl h)))))
  · exact Or.inr (Or.inr (Or.inr (Or.inr (Or.inr (Or.inr
      (Or.inl (runReducePhase_events _ _ e h)))))))
  · exact Or.inr (Or.inr (Or.inr (Or.inr (Or.inr (Or.inr (Or.inr h))))))

theorem jobAssign_sub_jobStart (env : Env) (d : Driver) (idx : Nat) (p : JobPtr)
    (input0 : String) (inputs : List String) (job : Job) (e : Event)
    (he : e ∈ jobAssign env d idx p input0) : e ∈ jobStart env d idx p input0 inputs job := by
  unfold jobStart
  simp only [List.mem_append]
  exact Or.inl (Or.inl he)

theorem jobStart_sub_jobBlock (env : Env) (d : Driver) (idx : Nat) (p : JobPtr)
    (input0 : String) (inputs : List String) (job : Job) (e : Event)
    (he : e ∈ jobStart env d idx p input0 inputs job) :
    e ∈ jobBlock env d idx p input0 inputs job := by
  unfold jobBlock
  simp only [List.mem_append]
  exact Or.inl (Or.inl (Or.inl he))

/-- The four ways in which one iteration of the loop can go. -/
theorem runJob_cases (env : Env) (d : Driver) (idx : Nat) (inputs : List String)
    (job : Option JobPtr) (heap : Heap) :
    ((inputs = [] ∨ job = none)
        ∧ runJob env d idx inputs job heap
          = { trace := [], heap := heap, outcome := Outcome.panicked, inputs := [] })
      ∨ (∃ p input0 ins, job = some p ∧ inputs = input0 :: ins ∧ (heap p).config = none
          ∧ runJob env d idx inputs job heap
            = { trace := jobAssign env d idx p input0
                heap := heapSet heap p (assignedJob env d idx input0 (heap p))
                outcome := Outcome.panicked, inputs := [] })
      ∨ (∃ p input0 ins c, job = some p ∧ inputs = input0 :: ins ∧ (heap p).config = some c
          ∧ runJob env d idx inputs job heap
            = { trace := jobStart env d idx p input0 inputs (heap p)
                heap := heapSet heap p (preparedJob env d idx input0 (heap p))
                outcome := Outcome.blocked, inputs := [] })
      ∨ (∃ p input0 ins c, job = some p ∧ inputs = input0 :: ins ∧ (heap p).config = some c
          ∧ runJob env d idx inputs job heap
            = { trace := jobBlock env d idx p input0 inputs (heap p)
                heap := heapSet heap p (preparedJob env d idx input0 (heap p))
                outcome := Outcome.returned, inputs := nextInputs env d idx input0 }) := by
  cases inputs with
  | nil => exact Or.inl ⟨Or.inl rfl, runJob_nil_inputs env d idx job heap⟩
  | cons input0 ins =>
    cases job with
    | none => exact Or.inl ⟨Or.inr rfl, runJob_nil_job env d idx input0 ins heap⟩
    | some p =>
      cases hcfg : (heap p).config with
      | none =>
        exact Or.inr (Or.inl ⟨p, input0, ins, rfl, rfl, hcfg,
          runJob_nil_config env d idx input0 ins p heap hcfg⟩)
      | some c =>
        cases hb : (runMapPhase env d (preparedJob env d idx input0 (heap p)) idx
            (input0 :: ins)).2 with
        | false =>
          exact Or.inr (Or.inr (Or.inl ⟨p, input0, ins, c, rfl, rfl, hcfg,
            runJob_blocked env d idx input0 ins p heap c hcfg hb⟩))
        | true =>
          exact Or.inr (Or.inr (Or.inr ⟨p, input0, ins, c, rfl, rfl, hcfg,
            runJob_complete env d idx input0 ins p heap c hcfg hb⟩))

/-- Every step of an iteration is a step of the complete iteration on the job
at hand. -/
theorem runJob_trace_sub (env : Env) (d : Driver) (idx : Nat) (inputs : List String)
    (job : Option JobPtr) (heap : Heap) (e : Event)
    (he : e ∈ (runJob env d idx inputs job heap).trace) :
    ∃ p input0 ins, job = some p ∧ inputs = input0 :: ins
      ∧ e ∈ jobBlock env d idx p input0 inputs (heap p) := by
  rcases runJob_cases env d idx inputs job heap with
    ⟨_, h⟩ | ⟨p, input0, ins, hj, hi, _, h⟩ | ⟨p, input0, ins, c, hj, hi, _, h⟩
      | ⟨p, input0, ins, c, hj, hi, _, h⟩
  · rw [h] at he
    simp at he
  · rw [h] at he
    exact ⟨p, input0, ins, hj, hi,
      jobStart_sub_jobBlock _ _ _ _ _ _ _ _ (jobAssign_sub_jobStart _ _ _ _ _ _ _ _ he)⟩
  · rw [h] at he
    exact ⟨p, input0, ins, hj, hi, jobStart_sub_jobBlock _ _ _ _ _ _ _ _ he⟩
  · rw [h] at he
    exact ⟨p, input0, ins, hj, hi, he⟩

theorem runJob_jobIndex (env : Env) (d : Driver) (idx : Nat) (inputs : List String)
    (job : Option JobPtr) (heap : Heap) (e : Event)
    (he : e ∈ (runJob env d idx inputs job heap).trace) : e.jobIndex = some idx := by
  obtain ⟨p, input0, ins, _, _, hmem⟩ := runJob_trace_sub env d idx inputs job heap e he
  rcases mem_jobBlock env d idx p input0 inputs (heap p) e hmem with
    h | h | h | h | ⟨b, bin, h⟩ | h | ⟨b, h⟩ | h <;> subst h <;> rfl

/-- An iteration that runs to its end is a complete block on a job with a
config. -/
theorem runJob_returned (env : Env) (d : Driver) (idx : Nat) (inputs : List String)
    (job : Option JobPtr) (heap : Heap)
    (hret : (runJob env d idx inputs job heap).outcome = Outcome.returned) :
    ∃ p input0 ins c, job = some p ∧ inputs = input0 :: ins ∧ (heap p).config = some c
      ∧ runJob env d idx inputs job heap
        = { trace := jobBlock env d idx p input0 inputs (heap p)
            heap := heapSet heap p (preparedJob env d idx input0 (heap p))
            outcome := Outcome.returned, inputs := nextInputs env d idx input0 } := by
  rcases runJob_cases env d idx inputs job heap with
    ⟨_, h⟩ | ⟨p, input0, ins, hj, hi, _, h⟩ | ⟨p, input0, ins, c, hj, hi, _, h⟩
      | ⟨p, input0, ins, c, hj, hi, hc, h⟩
  · rw [h] at hret; cases hret
  · rw [h] at hret; cases hret
  · rw [h] at hret; cases hret
  · exact ⟨p, input0, ins, c, hj, hi, hc, h⟩

/-- An iteration takes no config away. -/
theorem runJob_config (env : Env) (d : Driver) (idx : Nat) (inputs : List String)
    (job : Option JobPtr) (heap : Heap) (q : JobPtr)
    (hq : (heap q).config.isSome = true) :
    ((runJob env d idx inputs job heap).heap q).config.isSome = true := by
  rcases runJob_cases env d idx inputs job heap with
    ⟨_, h⟩ | ⟨p, input0, ins, hj, hi, _, h⟩ | ⟨p, input0, ins, c, hj, hi, _, h⟩
      | ⟨p, input0, ins, c, hj, hi, _, h⟩
  · rw [h]; exact hq
  all_goals
    rw [h]
    by_cases hqp : q = p
    · subst hqp
      simp only [heapSet_same, assignedJob, preparedJob]
      first
        | exact hq
        | rfl
    · simp only [heapSet_other _ _ _ _ hqp]
      exact hq

/-! ## The loop of `run` -/

theorem runJob_mem_runMapPhase (env : Env) (d : Driver) (idx : Nat) (inputs : List String)
    (job : Option JobPtr) (heap : Heap) (j : Nat) (q : JobPtr) (inp : List String)
    (he : Event.runMapPhase j q inp ∈ (runJob env d idx inputs job heap).trace) :
    j = idx ∧ job = some q ∧ inp = inputs := by
  obtain ⟨p, input0, ins, hj, _, hmem⟩ := runJob_trace_sub env d idx inputs job heap _ he
  rcases mem_jobBlock env d idx p input0 inputs (heap p) _ hmem with
    h | h | h | h | ⟨b, bin, h⟩ | h | ⟨b, h⟩ | h <;> cases h
  exact ⟨rfl, hj, rfl⟩

theorem runJobs_nil (env : Env) (d : Driver) (idx : Nat) (inputs : List String)
    (heap : Heap) :
    runJobs env d idx inputs [] heap
      = { trace := [], heap := heap, outcome := Outcome.returned } := by
  simp [runJobs]

theorem runJobs_cons_returned (env : Env) (d : Driver) (idx : Nat) (inputs : List String)
    (job : Option JobPtr) (rest : List (Option JobPtr)) (heap : Heap)
    (h : (runJob env d idx inputs job heap).outcome = Outcome.returned) :
    runJobs env d idx inputs (job :: rest) heap
      = { trace := (runJob env d idx inputs job heap).trace
            ++ (runJobs env d (idx + 1) (runJob env d idx inputs job heap).inputs rest
                  (runJob env d idx inputs job heap).heap).trace
          heap := (runJobs env d (idx + 1) (runJob env d idx inputs job heap).inputs rest
                  (runJob env d idx inputs job heap).heap).heap
          outcome := (runJobs env d (idx + 1) (runJob env d idx inputs job heap).inputs rest
                  (runJob env d idx inputs job heap).heap).outcome } := by
  simp [runJobs, h]

theorem runJobs_cons_stopped (env : Env) (d : Driver) (idx : Nat) (inputs : List String)
    (job : Option JobPtr) (rest : List (Option JobPtr)) (heap : Heap)
    (h : (runJob env d idx inputs job heap).outcome ≠ Outcome.returned) :
    runJobs env d idx inputs (job :: rest) heap
      = { trace := (runJob env d idx inputs job heap).trace
          heap := (runJob env d idx inputs job heap).heap
          outcome := (runJob env d idx inputs job heap).outcome } := by
  simp [runJobs, h]

/-- A step of the loop is a step of its first iteration or, when that has run
to its end, of the rest of the loop. -/
theorem mem_runJobs_cons (env : Env) (d : Driver) (idx : Nat) (inputs : List String)
    (job : Option JobPtr) (rest : List (Option JobPtr)) (heap : Heap) (e : Event) :
    e ∈ (runJobs env d idx inputs (job :: rest) heap).trace
      ↔ e ∈ (runJob env d idx inputs job heap).trace
        ∨ ((runJob env d idx inputs job heap).outcome = Outcome.returned
            ∧ e ∈ (runJobs env d (idx + 1) (runJob env d idx inputs job heap).inputs rest
                    (runJob env d idx inputs job heap).heap).trace) := by
  by_cases h : (runJob env d idx inputs job heap).outcome = Outcome.returned
  · rw [runJobs_cons_returned env d idx inputs job rest heap h]
    simp [h]
  · rw [runJobs_cons_stopped env d idx inputs job rest heap h]
    simp [h]

/-- Every step of the loop from index `idx` on belongs to a job at one of the
indices `idx`, ..., `idx + n - 1`. -/
theorem runJobs_jobIndex (env : Env) (d : Driver) :
    ∀ (jobs : List (Option JobPtr)) (idx : Nat) (inputs : List String) (heap : Heap),
      ∀ e ∈ (runJobs env d idx inputs jobs heap).trace,
        ∃ i, e.jobIndex = some i ∧ idx ≤ i ∧ i < idx + jobs.length := by
  intro jobs
  induction jobs with
  | nil => intro idx inputs heap e he; simp [runJobs_nil] at he
  | cons job rest ih =>
    intro idx inputs heap e he
    rw [mem_runJobs_cons] at he
    rcases he with he | ⟨_, he⟩
    · exact ⟨idx, runJob_jobIndex _ _ _ _ _ _ e he, le_refl _, by simp⟩
    · obtain ⟨i, hi, h1, h2⟩ := ih _ _ _ e he
      exact ⟨i, hi, by omega, by simp only [List.length_cons]; omega⟩

/-- A step of the job at `idx` is a step of the first iteration. -/
theorem mem_runJobs_first (env : Env) (d : Driver) (idx : Nat) (inputs : List String)
    (job : Option JobPtr) (rest : List (Option JobPtr)) (heap : Heap) (e : Event)
    (he : e ∈ (runJobs env d idx inputs (job :: rest) heap).trace)
    (hidx : e.jobIndex = some idx) :
    e ∈ (runJob env d idx inputs job heap).trace := by
  rw [mem_runJobs_cons] at he
  rcases he with he | ⟨_, he⟩
  · exact he
  · obtain ⟨i, hi, h1, _⟩ := runJobs_jobIndex env d rest _ _ _ e he
    rw [hidx] at hi
    simp only [Option.some.injEq] at hi
    omega

/-- A step of a later job is a step of the rest of the loop, entered after
the first iteration has run to its end. -/
theorem mem_runJobs_rest (env : Env) (d : Driver) (idx : Nat) (inputs : List String)
    (job : Option JobPtr) (rest : List (Option JobPtr)) (heap : Heap) (e : Event) (j : Nat)
    (he : e ∈ (runJobs env d idx inputs (job :: rest) heap).trace)
    (hidx : e.jobIndex = some j) (hj : idx < j) :
    (runJob env d idx inputs job heap).outcome = Outcome.returned
      ∧ e ∈ (runJobs env d (idx + 1) (runJob env d idx inputs job heap).inputs rest
              (runJob env d idx inputs job heap).heap).trace := by
  rw [mem_runJobs_cons] at he
  rcases he with he | he
  · have := runJob_jobIndex _ _ _ _ _ _ e he
    rw [hidx] at this
    simp only [Option.some.injEq] at this
    omega
  · exact he

/-- A loop that runs to its end has run every iteration to its end. -/
theorem runJobs_returned_cons (env : Env) (d : Driver) (idx : Nat) (inputs : List String)
    (job : Option JobPtr) (rest : List (Option JobPtr)) (heap : Heap)
    (hret : (runJobs env d idx inputs (job :: rest) heap).outcome = Outcome.returned) :
    (runJob env d idx inputs job heap).outcome = Outcome.returned
      ∧ (runJobs env d (idx + 1) (runJob env d idx inputs job heap).inputs rest
          (runJob env d idx inputs job heap).heap).outcome = Outcome.returned := by
  by_cases h : (runJob env d idx inputs job heap).outcome = Outcome.returned
  · rw [runJobs_cons_returned env d idx inputs job rest heap h] at hret
    exact ⟨h, hret⟩
  · rw [runJobs_cons_stopped env d idx inputs job rest heap h] at hret
    exact absurd hret h

/-- The trace of a loop that runs to its end is one complete iteration per
entry of the job list, in order. -/
theorem runJobs_blocks (env : Env) (d : Driver) :
    ∀ (jobs : List (Option JobPtr)) (idx : Nat) (inputs : List String) (heap : Heap),
      (runJobs env d idx inputs jobs heap).outcome = Outcome.returned →
      ∃ blocks : List (List Event),
        (runJobs env d idx inputs jobs heap).trace = blocks.flatten
          ∧ blocks.length = jobs.length
          ∧ ∀ k, k < jobs.length →
              ∃ p input0 inp job, jobs[k]? = some (some p)
                ∧ blocks[k]? = some (jobBlock env d (idx + k) p input0 inp job) := by
  intro jobs
  induction jobs with
  | nil =>
    intro idx inputs heap _
    exact ⟨[], by simp [runJobs_nil], rfl, by intro k hk; simp at hk⟩
  | cons job rest ih =>
    intro idx inputs heap hret
    obtain ⟨hbody, hnext⟩ := runJobs_returned_cons env d idx inputs job rest heap hret
    obtain ⟨p, input0, ins, c, hj, hi, _, hrun⟩ :=
      runJob_returned env d idx inputs job heap hbody
    obtain ⟨blocks, htr, hlen, hall⟩ := ih _ _ _ hnext
    refine ⟨(runJob env d idx inputs job heap).trace :: blocks, ?_, by simp [hlen], ?_⟩
    · rw [runJobs_cons_returned env d idx inputs job rest heap hbody]
      simp [htr]
    · intro k hk
      cases k with
      | zero =>
        refine ⟨p, input0, inputs, heap p, by simp [hj], ?_⟩
        rw [hrun]
        simp
      | succ k =>
        obtain ⟨q, i0, inp, j0, h1, h2⟩ := hall k (by simp only [List.length_cons] at hk; omega)
        have e2 : idx + (k + 1) = idx + 1 + k := by omega
        refine ⟨q, i0, inp, j0, by simpa using h1, ?_⟩
        rw [e2]
        simpa using h2

theorem validJobs_cons (heap : Heap) (job : Option JobPtr) (rest : List (Option JobPtr)) :
    validJobs heap (job :: rest) = true
      ↔ (∃ p, job = some p ∧ (heap p).config.isSome = true) ∧ validJobs heap rest = true := by
  cases job with
  | none => simp [validJobs]
  | some p => simp [validJobs]

theorem validJobs_runJob (env : Env) (d : Driver) (idx : Nat) (inputs : List String)
    (job : Option JobPtr) (heap : Heap) (jobs : List (Option JobPtr))
    (h : validJobs heap jobs = true) :
    validJobs (runJob env d idx inputs job heap).heap jobs = true := by
  induction jobs with
  | nil => simp [validJobs]
  | cons e rest ih =>
    rw [validJobs_cons] at h ⊢
    obtain ⟨⟨p, hp, hcfg⟩, hrest⟩ := h
    exact ⟨⟨p, hp, runJob_config _ _ _ _ _ _ _ hcfg⟩, ih hrest⟩

/-- With inputs, with every job and every job config in place and with
`MaxConcurrency ≥ 1` the loop runs to its end (every task being taken to
return). -/
theorem runJobs_returns (env : Env) (d : Driver) (hc : 1 ≤ d.config.MaxConcurrency) :
    ∀ (jobs : List (Option JobPtr)) (idx : Nat) (inputs : List String) (heap : Heap),
      inputs ≠ [] → validJobs heap jobs = true →
      (runJobs env d idx inputs jobs heap).outcome = Outcome.returned := by
  intro jobs
  induction jobs with
  | nil => intro idx inputs heap _ _; simp [runJobs_nil]
  | cons job rest ih =>
    intro idx inputs heap hin hvalid
    rw [validJobs_cons] at hvalid
    obtain ⟨⟨p, hp, hcfg⟩, hrest⟩ := hvalid
    subst hp
    cases inputs with
    | nil => exact absurd rfl hin
    | cons input0 ins =>
      obtain ⟨c, hcfg1⟩ := Option.isSome_iff_exists.mp hcfg
      have hrun := runJob_complete env d idx input0 ins p heap c hcfg1
        (runMapPhase_returns _ _ _ _ _ hc)
      have hbody : (runJob env d idx (input0 :: ins) (some p) heap).outcome
          = Outcome.returned := by rw [hrun]
      rw [runJobs_cons_returned env d idx _ _ rest heap hbody]
      apply ih
      · rw [hrun]
        simp [nextInputs]
      · exact validJobs_runJob _ _ _ _ _ _ _ hrest

/-- The map phase of an iteration is run on the job listed at its index. -/
theorem runJobs_runMapPhase_ptr (env : Env) (d : Driver) :
    ∀ (jobs : List (Option JobPtr)) (idx : Nat) (inputs : List String) (heap : Heap)
      (k : Nat) (p : JobPtr) (inp : List String),
      Event.runMapPhase (idx + k) p inp ∈ (runJobs env d idx inputs jobs heap).trace →
      jobs[k]? = some (some p) := by
  intro jobs
  induction jobs with
  | nil => intro idx inputs heap k p inp h; simp [runJobs_nil] at h
  | cons job rest ih =>
    intro idx inputs heap k p inp h
    cases k with
    | zero =>
      have hbody := mem_runJobs_first env d idx inputs job rest heap _ h rfl
      obtain ⟨_, hj, _⟩ := runJob_mem_runMapPhase _ _ _ _ _ _ _ _ _ hbody
      simp [hj]
    | succ k =>
      obtain ⟨_, hnext⟩ :=
        mem_runJobs_rest env d idx inputs job rest heap _ (idx + (k + 1)) h rfl (by omega)
      have e2 : idx + (k + 1) = idx + 1 + k := by omega
      rw [e2] at hnext
      simpa using ih _ _ _ k p inp hnext

/-! ## Facts about `run` itself -/

theorem runOnCloudPlatfrom_local (env : Env) (hl : env.runningInLambda = false)
    (hw : env.runningInWhisk = false) : runOnCloudPlatfrom env = ([], false) := by
  simp [runOnCloudPlatfrom, hl, hw]

/-- Outside a cloud runtime and with inputs, `run` is the deployment followed
by the loop over the jobs. -/
theorem run_eq_runJobs (env : Env) (heap : Heap) (d : Driver)
    (hl : env.runningInLambda = false) (hw : env.runningInWhisk = false)
    (hin : d.config.Inputs ≠ []) :
    run env heap d
      = { trace := (if env.platform d.executor then [Event.Deploy] else [])
            ++ (runJobs env d 0 d.config.Inputs d.jobs heap).trace
          heap := (runJobs env d 0 d.config.Inputs d.jobs heap).heap
          outcome := (runJobs env d 0 d.config.Inputs d.jobs heap).outcome } := by
  have hlen : ¬ d.config.Inputs.length = 0 := by
    intro h
    exact hin (List.length_eq_zero.mp h)
  simp [run, runOnCloudPlatfrom_local env hl hw, hlen]

/-- Outside a cloud runtime, with every job and every job config in place and
with `MaxConcurrency ≥ 1`, `run` returns (every task being taken to
return). -/
theorem run_returns (env : Env) (heap : Heap) (d : Driver)
    (hl : env.runningInLambda = false) (hw : env.runningInWhisk = false)
    (hvalid : validJobs heap d.jobs = true) (hc : 1 ≤ d.config.MaxConcurrency) :
    (run env heap d).outcome = Outcome.returned := by
  by_cases hin : d.config.Inputs = []
  · simp [run, runOnCloudPlatfrom_local env hl hw, hin]
  · rw [run_eq_runJobs env heap d hl hw hin]
    exact runJobs_returns env d hc d.jobs 0 _ heap hin hvalid

/-! ## Runs that do not reach the end of the loop -/

/-- C9: if `config.Inputs` is empty when `run` is called and the process is
not inside a cloud runtime, then for every job list `run` returns without
dispatching any task: its only possible step is the deployment, no
`RunMapper` or `RunReducer` is dispatched, no job's `fileSystem`,
`outputPath` or `config` is assigned, `done` is called on no job, and the
jobs are left as they were. -/
theorem C9_empty_inputs (env : Env) (heap : Heap) (d : Driver)
    (hl : env.runningInLambda = false) (hw : env.runningInWhisk = false)
    (hin : d.config.Inputs = []) :
    (run env heap d).outcome = Outcome.returned
      ∧ (run env heap d).heap = heap
      ∧ (run env heap d).trace = (if env.platform d.executor then [Event.Deploy] else [])
      ∧ ∀ e ∈ (run env heap d).trace,
          e.isTask = false ∧ e.touchesJob = false ∧ e.jobIndex = none := by
  have hrun : run env heap d
      = { trace := (if env.platform d.executor then [Event.Deploy] else [])
          heap := heap, outcome := Outcome.returned } := by
    simp [run, runOnCloudPlatfrom_local env hl hw, hin]
  rw [hrun]
  refine ⟨rfl, rfl, rfl, ?_⟩
  intro e he
  by_cases hp : env.platform d.executor = true
  · simp only [hp, if_true, List.mem_singleton] at he
    subst he
    exact ⟨rfl, rfl, rfl⟩
  · simp [hp] at he

/-- C9 at the two-job driver without inputs: `run` returns with an empty
trace. -/
theorem C9_empty_inputs_witness :
    exampleDriverNoInputs.config.Inputs = []
      ∧ (run exampleEnv exampleHeap exampleDriverNoInputs).trace = []
      ∧ (run exampleEnv exampleHeap exampleDriverNoInputs).outcome = Outcome.returned :=
  ⟨rfl, by decide,
   (C9_empty_inputs exampleEnv exampleHeap exampleDriverNoInputs rfl rfl rfl).1⟩

theorem countP_set_add {α : Type} (p : α → Bool) :
    ∀ (l : List α) (j : Nat) (y x : α), l[j]? = some y →
      (l.set j x).countP p + (if p y then 1 else 0)
        = l.countP p + (if p x then 1 else 0) := by
  intro l
  induction l with
  | nil => intro j y x h; simp at h
  | cons a l ih =>
    intro j y x h
    cases j with
    | zero =>
      simp only [List.getElem?_cons_zero, Option.some.injEq] at h
      subst h
      simp only [List.set_cons_zero, List.countP_cons]
      omega
    | succ j =>
      simp only [List.getElem?_cons_succ] at h
      have := ih j y x h
      simp only [List.set_cons_succ, List.countP_cons]
      omega

theorem countP_set_same {α : Type} (p : α → Bool) (l : List α) (j : Nat) (y x : α)
    (h : l[j]? = some y) (hp : p x = p y) : (l.set j x).countP p = l.countP p := by
  have := countP_set_add p l j y x h
  rw [hp] at this
  omega

theorem sum_map_set_add {α : Type} (f : α → Nat) :
    ∀ (l : List α) (j : Nat) (y x : α), l[j]? = some y →
      ((l.set j x).map f).sum + f y = (l.map f).sum + f x := by
  intro l
  induction l with
  | nil => intro j y x h; simp at h
  | cons a l ih =>
    intro j y x h
    cases j with
    | zero =>
      simp only [List.getElem?_cons_zero, Option.some.injEq] at h
      subst h
      simp only [List.set_cons_zero, List.map_cons, List.sum_cons]
      omega
    | succ j =>
      simp only [List.getElem?_cons_succ] at h
      have := ih j y x h
      simp only [List.set_cons_succ, List.map_cons, List.sum_cons]
      omega

theorem map_set_same {α β : Type} (f : α → β) :
    ∀ (l : List α) (j : Nat) (y x : α), l[j]? = some y → f x = f y →
      (l.set j x).map f = l.map f := by
  intro l
  induction l with
  | nil => intro j y x h; simp at h
  | cons a l ih =>
    intro j y x h hf
    cases j with
    | zero =>
      simp only [List.getElem?_cons_zero, Option.some.injEq] at h
      subst h
      simp [hf]
    | succ j =>
      simp only [List.getElem?_cons_succ] at h
      simp [ih j y x h hf]

theorem mem_of_getElem?_eq {α : Type} (l : List α) (j : Nat) (y : α)
    (h : l[j]? = some y) : y ∈ l := by
  rw [List.getElem?_eq_some_iff] at h
  obtain ⟨hj, rfl⟩ := h
  exact List.getElem_mem hj

theorem exists_index_of_countP_pos {α : Type} (p : α → Bool) (l : List α)
    (h : 0 < l.countP p) : ∃ (j : Nat) (y : α), l[j]? = some y ∧ p y = true := by
  rw [List.countP_pos_iff] at h
  obtain ⟨a, ha, hp⟩ := h
  obtain ⟨j, hj, rfl⟩ := List.getElem_of_mem ha
  exact ⟨j, l.get ⟨j, hj⟩, by simp [hj], hp⟩

theorem enum_take_succ {α : Type} (l : List α) (k : Nat) (a : α) (h : l[k]? = some a) :
    l.enum.take (k + 1) = l.enum.take k ++ [(k, a)] := by
  rw [List.take_succ, List.getElem?_enum, h]
  rfl

/-! ## The invariant of the phase machine -/

theorem Inv_init (P : PhaseSetup) : Inv P (PhaseState.init P) := by
  cases hb : P.inputBins with
  | none =>
    have hbins : P.bins = [] := by simp [PhaseSetup.bins, hb]
    constructor <;>
      simp [PhaseState.init, hb, hbins, PC.mappersStarted, PC.reducersStarted, PC.valid,
        PC.holdsUnit, PC.inReduce]
  | some bins =>
    constructor <;>
      simp [PhaseState.init, hb, PC.mappersStarted, PC.reducersStarted, PC.valid,
        PC.holdsUnit, PC.inReduce]

theorem Inv_stepMain (P : PhaseSetup) (s s1 : PhaseState) (inv : Inv P s)
    (h : stepMain P s = some s1) : Inv P s1 := by
  have hlenM := inv.lenM
  have hlenR := inv.lenR
  have hvalid := inv.valid
  have hsem := inv.sem
  have hcap := inv.cap
  unfold stepMain at h
  cases hpc : s.pc with
  | mapAcquire k =>
    rw [hpc] at hlenM hlenR hvalid hsem
    simp only [PC.mappersStarted, PC.reducersStarted, PC.valid, PC.holdsUnit]
      at hlenM hlenR hvalid hsem
    simp only [hpc] at h
    by_cases hk : k < P.bins.length
    · rw [if_pos hk] at h
      by_cases hfree : 1 ≤ P.MaxConcurrency - s.semCur
      · rw [if_pos hfree] at h
        simp only [Option.some.injEq] at h
        subst h
        exact
          { lenM := hlenM, lenR := hlenR, valid := hk
            sem := by simp only [PC.holdsUnit]; omega
            wgM := inv.wgM, wgR := inv.wgR
            mapsDone := by intro hr; simp [PC.inReduce] at hr
            finDone := by intro hr; simp at hr
            redPhase := inv.redPhase, argsM := inv.argsM, argsR := inv.argsR
            calls := inv.calls
            cap := by intro _; simp only; omega }
      · rw [if_neg hfree] at h
        simp at h
    · rw [if_neg hk] at h
      simp only [Option.some.injEq] at h
      subst h
      exact
        { lenM := by simp only [PC.mappersStarted]; omega
          lenR := hlenR, valid := trivial
          sem := by simp only [PC.holdsUnit]; omega
          wgM := inv.wgM, wgR := inv.wgR
          mapsDone := by intro hr; simp [PC.inReduce] at hr
          finDone := by intro hr; simp at hr
          redPhase := inv.redPhase, argsM := inv.argsM, argsR := inv.argsR
          calls := inv.calls, cap := hcap }
  | mapSpawn k =>
    rw [hpc] at hlenM hlenR hvalid hsem
    simp only [PC.mappersStarted, PC.reducersStarted, PC.valid, PC.holdsUnit]
      at hlenM hlenR hvalid hsem
    simp only [hpc] at h
    cases hbin : P.bins[k]? with
    | none => simp [hbin] at h
    | some bin =>
      simp only [hbin, Option.some.injEq] at h
      subst h
      exact
        { lenM := by simp [PC.mappersStarted, hlenM]
          lenR := hlenR
          valid := by simp only [PC.valid]; omega
          sem := by
            have hsp : TaskPhase.holdsUnit TaskPhase.spawned = true := rfl
            simp only [List.countP_append, List.countP_singleton, PC.holdsUnit, hsp, if_true]
            push_cast
            omega
          wgM := by
            simp only [List.countP_append, List.countP_singleton]
            have := inv.wgM
            simp
            omega
          wgR := inv.wgR
          mapsDone := by intro hr; simp [PC.inReduce] at hr
          finDone := by intro hr; simp at hr
          redPhase := inv.redPhase
          argsM := by
            simp only [List.map_append, List.map_cons, List.map_nil, List.length_append,
              List.length_singleton]
            rw [inv.argsM, hlenM, enum_take_succ _ _ _ hbin]
          argsR := inv.argsR
          calls := by
            intro e
            simp only [List.countP_append, List.countP_singleton, TaskPhase.started]
            simpa using inv.calls e
          cap := hcap }
  | mapWait =>
    rw [hpc] at hlenM hlenR hvalid hsem
    simp only [PC.mappersStarted, PC.reducersStarted, PC.valid, PC.holdsUnit]
      at hlenM hlenR hvalid hsem
    simp only [hpc] at h
    by_cases hwg : s.wgMap = 0
    · rw [if_pos hwg] at h
      simp only [Option.some.injEq] at h
      subst h
      exact
        { lenM := hlenM, lenR := hlenR
          valid := by simp [PC.valid]
          sem := by simp only [PC.holdsUnit]; omega
          wgM := inv.wgM, wgR := inv.wgR
          mapsDone := by
            intro _ t ht
            have := inv.wgM
            rw [hwg] at this
            have h0 := (List.countP_eq_zero.mp this.symm) t ht
            simpa using h0
          finDone := by intro hr; simp at hr
          redPhase := inv.redPhase, argsM := inv.argsM, argsR := inv.argsR
          calls := inv.calls, cap := hcap }
    · rw [if_neg hwg] at h
      simp at h
  | reduceSpawn k =>
    rw [hpc] at hlenM hlenR hvalid hsem
    simp only [PC.mappersStarted, PC.reducersStarted, PC.valid, PC.holdsUnit]
      at hlenM hlenR hvalid hsem
    have hdone := inv.mapsDone (by rw [hpc]; rfl)
    simp only [hpc] at h
    by_cases hk : k < P.intermediateBins
    · rw [if_pos hk] at h
      simp only [Option.some.injEq] at h
      subst h
      exact
        { lenM := hlenM
          lenR := by simp [PC.reducersStarted, hlenR]
          valid := by simp only [PC.valid]; omega
          sem := by simp only [PC.holdsUnit]; omega
          wgM := inv.wgM
          wgR := by
            simp only [List.countP_append, List.countP_singleton]
            have := inv.wgR
            simp
            omega
          mapsDone := fun _ => hdone
          finDone := by intro hr; simp at hr
          redPhase := by
            intro t ht
            simp only [List.mem_append, List.mem_singleton] at ht
            rcases ht with ht | ht
            · exact inv.redPhase t ht
            · subst ht; simp
          argsM := inv.argsM
          argsR := by
            simp only [List.map_append, List.map_cons, List.map_nil, List.length_append,
              List.length_singleton]
            rw [inv.argsR, hlenR, List.range_succ]
          calls := by
            intro e
            simp only [List.countP_append, List.countP_singleton, TaskPhase.started]
            simpa using inv.calls e
          cap := hcap }
    · rw [if_neg hk] at h
      simp only [Option.some.injEq] at h
      subst h
      exact
        { lenM := hlenM
          lenR := by simp only [PC.reducersStarted]; omega
          valid := trivial
          sem := by simp only [PC.holdsUnit]; omega
          wgM := inv.wgM, wgR := inv.wgR
          mapsDone := fun _ => hdone
          finDone := by intro hr; simp at hr
          redPhase := inv.redPhase, argsM := inv.argsM, argsR := inv.argsR
          calls := inv.calls, cap := hcap }
  | reduceWait =>
    rw [hpc] at hlenM hlenR hvalid hsem
    simp only [PC.mappersStarted, PC.reducersStarted, PC.valid, PC.holdsUnit]
      at hlenM hlenR hvalid hsem
    have hdone := inv.mapsDone (by rw [hpc]; rfl)
    simp only [hpc] at h
    by_cases hwg : s.wgReduce = 0
    · rw [if_pos hwg] at h
      simp only [Option.some.injEq] at h
      subst h
      exact
        { lenM := hlenM, lenR := hlenR, valid := trivial
          sem := by simp only [PC.holdsUnit]; omega
          wgM := inv.wgM, wgR := inv.wgR
          mapsDone := fun _ => hdone
          finDone := by
            intro _ t ht
            have := inv.wgR
            rw [hwg] at this
            have h0 := (List.countP_eq_zero.mp this.symm) t ht
            simpa using h0
          redPhase := inv.redPhase, argsM := inv.argsM, argsR := inv.argsR
          calls := inv.calls, cap := hcap }
    · rw [if_neg hwg] at h
      simp at h
  | finished =>
    simp [hpc] at h

/-- Replacing the record of a mapper goroutine that is not done keeps the
invariant, provided the semaphore, the wait group and the call log are
adjusted to the change of phase. -/
theorem Inv_setMapper (P : PhaseSetup) (s : PhaseState) (j : Nat) (t t1 : MapTask)
    (inv : Inv P s) (ht : s.mappers[j]? = some t)
    (hb : t1.bID = t.bID) (hbb : t1.b = t.b) (hnd : t.phase ≠ TaskPhase.done)
    (sc : Int) (wg : Nat) (cl : List Event) (er : List ErrorLog)
    (hsc : sc + (if t.phase.holdsUnit then 1 else 0)
      = s.semCur + (if t1.phase.holdsUnit then 1 else 0))
    (hwg : wg + (if t.phase != TaskPhase.done then 1 else 0)
      = s.wgMap + (if t1.phase != TaskPhase.done then 1 else 0))
    (hcl : ∀ e, cl.count e
        + (if t.phase.started && (Event.RunMapper P.jobNumber t.bID t.b == e) then 1 else 0)
      = s.calls.count e
        + (if t1.phase.started && (Event.RunMapper P.jobNumber t1.bID t1.b == e)
            then 1 else 0))
    (hle : sc ≤ s.semCur) :
    Inv P { s with mappers := s.mappers.set j t1, semCur := sc, wgMap := wg,
                   calls := cl, errors := er } := by
  have hmem := mem_of_getElem?_eq _ _ _ ht
  have hnr : s.pc.inReduce = false := by
    cases hr : s.pc.inReduce with
    | false => rfl
    | true => exact absurd (inv.mapsDone hr t hmem) hnd
  exact
    { lenM := by simp only [List.length_set]; exact inv.lenM
      lenR := inv.lenR
      valid := inv.valid
      sem := by
        have h1 := countP_set_add (fun t : MapTask => t.phase.holdsUnit) s.mappers j t t1 ht
        have h2 := inv.sem
        simp only at h1 ⊢
        cases ha : t.phase.holdsUnit <;> cases hb1 : t1.phase.holdsUnit <;>
          simp only [ha, hb1, if_true, Bool.false_eq_true, if_false] at h1 hsc <;> omega
      wgM := by
        have h1 := countP_set_add (fun t : MapTask => t.phase != TaskPhase.done)
          s.mappers j t t1 ht
        have h2 := inv.wgM
        simp only at h1 ⊢
        cases ha : (t.phase != TaskPhase.done) <;> cases hb1 : (t1.phase != TaskPhase.done) <;>
          simp only [ha, hb1, if_true, Bool.false_eq_true, if_false] at h1 hwg <;> omega
      wgR := inv.wgR
      mapsDone := by intro hr; simp only at hr; rw [hnr] at hr; cases hr
      finDone := by
        intro hr
        simp only at hr
        rw [hr] at hnr
        cases hnr
      redPhase := inv.redPhase
      argsM := by
        simp only [List.length_set]
        rw [map_set_same (fun t : MapTask => (t.bID, t.b)) s.mappers j t t1 ht
          (by simp [hb, hbb])]
        exact inv.argsM
      argsR := inv.argsR
      calls := by
        intro e
        have h1 := countP_set_add
          (fun t : MapTask => t.phase.started && (Event.RunMapper P.jobNumber t.bID t.b == e))
          s.mappers j t t1 ht
        have h2 := inv.calls e
        have h3 := hcl e
        simp only at h1 ⊢
        omega
      cap := by
        intro hc
        have := inv.cap hc
        simp only
        omega }

theorem Inv_stepMapper (P : PhaseSetup) (s s1 : PhaseState) (j : Nat) (inv : Inv P s)
    (h : stepMapper P s j = some s1) : Inv P s1 := by
  unfold stepMapper at h
  cases ht : s.mappers[j]? with
  | none => simp [ht] at h
  | some t =>
    simp only [ht] at h
    cases hph : t.phase with
    | spawned =>
      simp only [hph, Option.some.injEq] at h
      subst h
      apply Inv_setMapper P s j t { t with phase := TaskPhase.running } inv ht
        rfl rfl (by simp [hph]) s.semCur s.wgMap _ s.errors
      · simp [hph, TaskPhase.holdsUnit]
      · simp [hph]
      · intro e
        simp only [hph, TaskPhase.started, List.count_append, List.count_singleton,
          Bool.false_and, Bool.true_and]
        simp
      · exact le_refl _
    | running =>
      simp only [hph, Option.some.injEq] at h
      subst h
      apply Inv_setMapper P s j t { t with phase := TaskPhase.returned } inv ht
        rfl rfl (by simp [hph]) s.semCur s.wgMap s.calls
      · simp [hph, TaskPhase.holdsUnit]
      · simp [hph]
      · intro e
        simp [hph, TaskPhase.started]
      · exact le_refl _
    | returned =>
      simp only [hph, Option.some.injEq] at h
      subst h
      apply Inv_setMapper P s j t { t with phase := TaskPhase.released } inv ht
        rfl rfl (by simp [hph]) _ s.wgMap s.calls s.errors
      · simp [hph, TaskPhase.holdsUnit]
      · simp [hph]
      · intro e
        simp [hph, TaskPhase.started]
      · omega
    | released =>
      simp only [hph, Option.some.injEq] at h
      subst h
      have hpos : 0 < s.wgMap := by
        rw [inv.wgM, List.countP_pos_iff]
        exact ⟨t, mem_of_getElem?_eq _ _ _ ht, by simp [hph]⟩
      apply Inv_setMapper P s j t { t with phase := TaskPhase.done } inv ht
        rfl rfl (by simp [hph]) s.semCur _ s.calls s.errors
      · simp [hph, TaskPhase.holdsUnit]
      · simp [hph]
        omega
      · intro e
        simp [hph, TaskPhase.started]
      · exact le_refl _
    | done =>
      simp [hph] at h

/-- Replacing the record of a reducer goroutine that is not done keeps the
invariant, provided the wait group and the call log are adjusted to the change
of phase. -/
theorem Inv_setReducer (P : PhaseSetup) (s : PhaseState) (j : Nat) (t t1 : ReduceTask)
    (inv : Inv P s) (ht : s.reducers[j]? = some t)
    (hb : t1.bID = t.bID) (hnd : t.phase ≠ TaskPhase.done)
    (hrel : t1.phase ≠ TaskPhase.released)
    (wg : Nat) (cl : List Event) (er : List ErrorLog)
    (hwg : wg + (if t.phase != TaskPhase.done then 1 else 0)
      = s.wgReduce + (if t1.phase != TaskPhase.done then 1 else 0))
    (hcl : ∀ e, cl.count e
        + (if t.phase.started && (Event.RunReducer P.jobNumber t.bID == e) then 1 else 0)
      = s.calls.count e
        + (if t1.phase.started && (Event.RunReducer P.jobNumber t1.bID == e)
            then 1 else 0)) :
    Inv P { s with reducers := s.reducers.set j t1, wgReduce := wg,
                   calls := cl, errors := er } := by
  have hmem := mem_of_getElem?_eq _ _ _ ht
  have hnf : s.pc ≠ PC.finished := by
    intro hf
    exact hnd (inv.finDone hf t hmem)
  exact
    { lenM := inv.lenM
      lenR := by simp only [List.length_set]; exact inv.lenR
      valid := inv.valid
      sem := inv.sem
      wgM := inv.wgM
      wgR := by
        have h1 := countP_set_add (fun t : ReduceTask => t.phase != TaskPhase.done)
          s.reducers j t t1 ht
        have h2 := inv.wgR
        simp only at h1 ⊢
        cases ha : (t.phase != TaskPhase.done) <;> cases hb1 : (t1.phase != TaskPhase.done) <;>
          simp only [ha, hb1, if_true, Bool.false_eq_true, if_false] at h1 hwg <;> omega
      mapsDone := inv.mapsDone
      finDone := by intro hr; exact absurd hr hnf
      redPhase := by
        intro x hx
        rcases List.mem_or_eq_of_mem_set hx with hx | hx
        · exact inv.redPhase x hx
        · rw [hx]; exact hrel
      argsM := inv.argsM
      argsR := by
        simp only [List.length_set]
        rw [map_set_same (fun t : ReduceTask => t.bID) s.reducers j t t1 ht hb]
        exact inv.argsR
      calls := by
        intro e
        have h1 := countP_set_add
          (fun t : ReduceTask => t.phase.started && (Event.RunReducer P.jobNumber t.bID == e))
          s.reducers j t t1 ht
        have h2 := inv.calls e
        have h3 := hcl e
        simp only at h1 ⊢
        omega
      cap := inv.cap }

theorem Inv_stepReducer (P : PhaseSetup) (s s1 : PhaseState) (j : Nat) (inv : Inv P s)
    (h : stepReducer P s j = some s1) : Inv P s1 := by
  unfold stepReducer at h
  cases ht : s.reducers[j]? with
  | none => simp [ht] at h
  | some t =>
    simp only [ht] at h
    cases hph : t.phase with
    | spawned =>
      simp only [hph, Option.some.injEq] at h
      subst h
      apply Inv_setReducer P s j t { t with phase := TaskPhase.running } inv ht
        rfl (by simp [hph]) (by simp) s.wgReduce _ s.errors
      · simp [hph]
      · intro e
        simp only [hph, TaskPhase.started, List.count_append, List.count_singleton,
          Bool.false_and, Bool.true_and]
        simp
    | running =>
      simp only [hph, Option.some.injEq] at h
      subst h
      apply Inv_setReducer P s j t { t with phase := TaskPhase.returned } inv ht
        rfl (by simp [hph]) (by simp) s.wgReduce s.calls
      · simp [hph]
      · intro e
        simp [hph, TaskPhase.started]
    | returned =>
      simp only [hph, Option.some.injEq] at h
      subst h
      have hpos : 0 < s.wgReduce := by
        rw [inv.wgR, List.countP_pos_iff]
        exact ⟨t, mem_of_getElem?_eq _ _ _ ht, by simp [hph]⟩
      apply Inv_setReducer P s j t { t with phase := TaskPhase.done } inv ht
        rfl (by simp [hph]) (by simp) _ s.calls s.errors
      · simp [hph]
        omega
      · intro e
        simp [hph, TaskPhase.started]
    | released =>
      simp [hph] at h
    | done =>
      simp [hph] at h

theorem Inv_step (P : PhaseSetup) (s s1 : PhaseState) (a : Actor) (inv : Inv P s)
    (h : step P s a = some s1) : Inv P s1 := by
  cases a with
  | main => exact Inv_stepMain P s s1 inv h
  | mapper j => exact Inv_stepMapper P s s1 j inv h
  | reducer j => exact Inv_stepReducer P s s1 j inv h

theorem Inv_exec (P : PhaseSetup) :
    ∀ (sched : List Actor) (s s1 : PhaseState), Inv P s → exec P s sched = some s1 →
      Inv P s1 := by
  intro sched
  induction sched with
  | nil =>
    intro s s1 inv h
    simp only [exec, Option.some.injEq] at h
    subst h
    exact inv
  | cons a sched ih =>
    intro s s1 inv h
    simp only [exec] at h
    cases hs : step P s a with
    | none => simp [hs] at h
    | some s2 =>
      simp only [hs] at h
      exact ih s2 s1 (Inv_step P s s2 a inv hs) h

theorem Inv_of_Reachable (P : PhaseSetup) (s : PhaseState) (h : Reachable P s) : Inv P s := by
  obtain ⟨sched, hs⟩ := h
  exact Inv_exec P sched _ s (Inv_init P) hs

/-! ## Progress of the phase machine -/

theorem remaining_stepMain (P : PhaseSetup) (s s1 : PhaseState)
    (h : stepMain P s = some s1) : s1.remaining P + 1 = s.remaining P := by
  unfold stepMain at h
  cases hpc : s.pc with
  | mapAcquire k =>
    simp only [hpc] at h
    by_cases hk : k < P.bins.length
    · rw [if_pos hk] at h
      by_cases hfree : 1 ≤ P.MaxConcurrency - s.semCur
      · rw [if_pos hfree] at h
        simp only [Option.some.injEq] at h
        subst h
        simp only [PhaseState.remaining, hpc, PC.steps]
        omega
      · rw [if_neg hfree] at h
        simp at h
    · rw [if_neg hk] at h
      simp only [Option.some.injEq] at h
      subst h
      simp only [PhaseState.remaining, hpc, PC.steps]
      have : P.bins.length - k = 0 := by omega
      rw [this]
      omega
  | mapSpawn k =>
    simp only [hpc] at h
    cases hbin : P.bins[k]? with
    | none => simp [hbin] at h
    | some bin =>
      have hk : k < P.bins.length := by
        rw [List.getElem?_eq_some_iff] at hbin
        exact hbin.1
      simp only [hbin, Option.some.injEq] at h
      subst h
      simp only [PhaseState.remaining, hpc, PC.steps, List.map_append, List.sum_append,
        List.map_cons, List.map_nil, List.sum_cons, List.sum_nil, TaskPhase.mapperSteps]
      omega
  | mapWait =>
    simp only [hpc] at h
    by_cases hwg : s.wgMap = 0
    · rw [if_pos hwg] at h
      simp only [Option.some.injEq] at h
      subst h
      simp only [PhaseState.remaining, hpc, PC.steps]
      omega
    · rw [if_neg hwg] at h
      simp at h
  | reduceSpawn k =>
    simp only [hpc] at h
    by_cases hk : k < P.intermediateBins
    · rw [if_pos hk] at h
      simp only [Option.some.injEq] at h
      subst h
      simp only [PhaseState.remaining, hpc, PC.steps, List.map_append, List.sum_append,
        List.map_cons, List.map_nil, List.sum_cons, List.sum_nil, TaskPhase.reducerSteps]
      omega
    · rw [if_neg hk] at h
      simp only [Option.some.injEq] at h
      subst h
      simp only [PhaseState.remaining, hpc, PC.steps]
      have : P.intermediateBins - k = 0 := by omega
      rw [this]
      omega
  | reduceWait =>
    simp only [hpc] at h
    by_cases hwg : s.wgReduce = 0
    · rw [if_pos hwg] at h
      simp only [Option.some.injEq] at h
      subst h
      simp only [PhaseState.remaining, hpc, PC.steps]
      omega
    · rw [if_neg hwg] at h
      simp at h
  | finished =>
    simp [hpc] at h

theorem remaining_setMapper (P : PhaseSetup) (s : PhaseState) (j : Nat) (t t1 : MapTask)
    (ht : s.mappers[j]? = some t) (hsteps : t1.phase.mapperSteps + 1 = t.phase.mapperSteps)
    (sc : Int) (wg : Nat) (cl : List Event) (er : List ErrorLog) :
    PhaseState.remaining P { s with mappers := s.mappers.set j t1, semCur := sc, wgMap := wg,
                                    calls := cl, errors := er } + 1
      = s.remaining P := by
  have := sum_map_set_add (fun t : MapTask => t.phase.mapperSteps) s.mappers j t t1 ht
  simp only at this
  simp only [PhaseState.remaining]
  omega

theorem remaining_setReducer (P : PhaseSetup) (s : PhaseState) (j : Nat) (t t1 : ReduceTask)
    (ht : s.reducers[j]? = some t) (hsteps : t1.phase.reducerSteps + 1 = t.phase.reducerSteps)
    (wg : Nat) (cl : List Event) (er : List ErrorLog) :
    PhaseState.remaining P { s with reducers := s.reducers.set j t1, wgReduce := wg,
                                    calls := cl, errors := er } + 1
      = s.remaining P := by
  have := sum_map_set_add (fun t : ReduceTask => t.phase.reducerSteps) s.reducers j t t1 ht
  simp only at this
  simp only [PhaseState.remaining]
  omega

theorem remaining_stepMapper (P : PhaseSetup) (s s1 : PhaseState) (j : Nat)
    (h : stepMapper P s j = some s1) : s1.remaining P + 1 = s.remaining P := by
  unfold stepMapper at h
  cases ht : s.mappers[j]? with
  | none => simp [ht] at h
  | some t =>
    simp only [ht] at h
    cases hph : t.phase with
    | spawned =>
      simp only [hph, Option.some.injEq] at h
      subst h
      exact remaining_setMapper P s j t { t with phase := TaskPhase.running } ht
        (by rw [hph]; rfl) _ _ _ _
    | running =>
      simp only [hph, Option.some.injEq] at h
      subst h
      exact remaining_setMapper P s j t { t with phase := TaskPhase.returned } ht
        (by rw [hph]; rfl) _ _ _ _
    | returned =>
      simp only [hph, Option.some.injEq] at h
      subst h
      exact remaining_setMapper P s j t { t with phase := TaskPhase.released } ht
        (by rw [hph]; rfl) _ _ _ _
    | released =>
      simp only [hph, Option.some.injEq] at h
      subst h
      exact remaining_setMapper P s j t { t with phase := TaskPhase.done } ht
        (by rw [hph]; rfl) _ _ _ _
    | done =>
      simp [hph] at h

theorem remaining_stepReducer (P : PhaseSetup) (s s1 : PhaseState) (j : Nat)
    (h : stepReducer P s j = some s1) : s1.remaining P + 1 = s.remaining P := by
  unfold stepReducer at h
  cases ht : s.reducers[j]? with
  | none => simp [ht] at h
  | some t =>
    simp only [ht] at h
    cases hph : t.phase with
    | spawned =>
      simp only [hph, Option.some.injEq] at h
      subst h
      exact remaining_setReducer P s j t { t with phase := TaskPhase.running } ht
        (by rw [hph]; rfl) _ _ _
    | running =>
      simp only [hph, Option.some.injEq] at h
      subst h
      exact remaining_setReducer P s j t { t with phase := TaskPhase.returned } ht
        (by rw [hph]; rfl) _ _ _
    | returned =>
      simp only [hph, Option.some.injEq] at h
      subst h
      exact remaining_setReducer P s j t { t with phase := TaskPhase.done } ht
        (by rw [hph]; rfl) _ _ _
    | released =>
      simp [hph] at h
    | done =>
      simp [hph] at h

/-- Every step uses up one of the remaining steps. -/
theorem remaining_step (P : PhaseSetup) (s s1 : PhaseState) (a : Actor)
    (h : step P s a = some s1) : s1.remaining P + 1 = s.remaining P := by
  cases a with
  | main => exact remaining_stepMain P s s1 h
  | mapper j => exact remaining_stepMapper P s s1 j h
  | reducer j => exact remaining_stepReducer P s s1 j h

theorem stepMapper_enabled (P : PhaseSetup) (s : PhaseState) (j : Nat) (t : MapTask)
    (ht : s.mappers[j]? = some t) (hnd : t.phase ≠ TaskPhase.done) :
    ∃ s1, stepMapper P s j = some s1 := by
  unfold stepMapper
  simp only [ht]
  cases hph : t.phase with
  | spawned => exact ⟨_, rfl⟩
  | running => exact ⟨_, rfl⟩
  | returned => exact ⟨_, rfl⟩
  | released => exact ⟨_, rfl⟩
  | done => exact absurd hph hnd

theorem stepReducer_enabled (P : PhaseSetup) (s : PhaseState) (j : Nat) (t : ReduceTask)
    (ht : s.reducers[j]? = some t) (hnd : t.phase ≠ TaskPhase.done)
    (hrel : t.phase ≠ TaskPhase.released) :
    ∃ s1, stepReducer P s j = some s1 := by
  unfold stepReducer
  simp only [ht]
  cases hph : t.phase with
  | spawned => exact ⟨_, rfl⟩
  | running => exact ⟨_, rfl⟩
  | returned => exact ⟨_, rfl⟩
  | released => exact absurd hph hrel
  | done => exact absurd hph hnd

/-- Without a bin to map, or with a semaphore of capacity at least 1, some
actor can step as long as `runReducePhase` has not returned. -/
theorem step_enabled (P : PhaseSetup) (s : PhaseState) (inv : Inv P s)
    (hc : P.bins = [] ∨ 1 ≤ P.MaxConcurrency) (hpc : s.pc ≠ PC.finished) :
    ∃ a s1, step P s a = some s1 := by
  have hlenM := inv.lenM
  have hvalid := inv.valid
  have hsem := inv.sem
  cases hp : s.pc with
  | mapAcquire k =>
    by_cases hk : k < P.bins.length
    · by_cases hfree : 1 ≤ P.MaxConcurrency - s.semCur
      · exact ⟨Actor.main, _, by simp only [step, stepMain, hp, if_pos hk, if_pos hfree]; rfl⟩
      · rw [hp] at hsem
        simp only [PC.holdsUnit] at hsem
        have hc1 : 1 ≤ P.MaxConcurrency := by
          rcases hc with h | h
          · rw [h] at hk
            simp at hk
          · exact h
        have hpos : 0 < s.mappers.countP (fun t => t.phase.holdsUnit) := by omega
        obtain ⟨j, t, ht, hh⟩ := exists_index_of_countP_pos _ _ hpos
        have hnd : t.phase ≠ TaskPhase.done := by
          intro hd
          rw [hd] at hh
          simp [TaskPhase.holdsUnit] at hh
        obtain ⟨s1, h1⟩ := stepMapper_enabled P s j t ht hnd
        exact ⟨Actor.mapper j, s1, h1⟩
    · exact ⟨Actor.main, _, by simp only [step, stepMain, hp, if_neg hk]; rfl⟩
  | mapSpawn k =>
    rw [hp] at hvalid
    simp only [PC.valid] at hvalid
    have : P.bins[k]? = some (P.bins.get ⟨k, hvalid⟩) := by simp [hvalid]
    exact ⟨Actor.main, _, by simp only [step, stepMain, hp, this]; rfl⟩
  | mapWait =>
    by_cases hwg : s.wgMap = 0
    · exact ⟨Actor.main, _, by simp only [step, stepMain, hp, if_pos hwg]; rfl⟩
    · have hpos : 0 < s.mappers.countP (fun t => t.phase != TaskPhase.done) := by
        have := inv.wgM
        omega
      obtain ⟨j, t, ht, hh⟩ := exists_index_of_countP_pos _ _ hpos
      have hnd : t.phase ≠ TaskPhase.done := by simpa using hh
      obtain ⟨s1, h1⟩ := stepMapper_enabled P s j t ht hnd
      exact ⟨Actor.mapper j, s1, h1⟩
  | reduceSpawn k =>
    by_cases hk : k < P.intermediateBins
    · exact ⟨Actor.main, _, by simp only [step, stepMain, hp, if_pos hk]; rfl⟩
    · exact ⟨Actor.main, _, by simp only [step, stepMain, hp, if_neg hk]; rfl⟩
  | reduceWait =>
    by_cases hwg : s.wgReduce = 0
    · exact ⟨Actor.main, _, by simp only [step, stepMain, hp, if_pos hwg]; rfl⟩
    · have hpos : 0 < s.reducers.countP (fun t => t.phase != TaskPhase.done) := by
        have := inv.wgR
        omega
      obtain ⟨j, t, ht, hh⟩ := exists_index_of_countP_pos _ _ hpos
      have hnd : t.phase ≠ TaskPhase.done := by simpa using hh
      have hrel := inv.redPhase t (mem_of_getElem?_eq _ _ _ ht)
      obtain ⟨s1, h1⟩ := stepReducer_enabled P s j t ht hnd hrel
      exact ⟨Actor.reducer j, s1, h1⟩
  | finished => exact absurd hp hpc

/-- Without a bin to map, or with a semaphore of capacity at least 1, the two
phases can be run to their end from every state that satisfies the
invariant. -/
theorem exec_to_finished (P : PhaseSetup) (hc : P.bins = [] ∨ 1 ≤ P.MaxConcurrency) :
    ∀ (n : Nat) (s : PhaseState), s.remaining P ≤ n → Inv P s →
      ∃ sched s1, exec P s sched = some s1 ∧ s1.pc = PC.finished := by
  intro n
  induction n with
  | zero =>
    intro s hn inv
    by_cases hpc : s.pc = PC.finished
    · exact ⟨[], s, rfl, hpc⟩
    · obtain ⟨a, s1, h1⟩ := step_enabled P s inv hc hpc
      have := remaining_step P s s1 a h1
      omega
  | succ n ih =>
    intro s hn inv
    by_cases hpc : s.pc = PC.finished
    · exact ⟨[], s, rfl, hpc⟩
    · obtain ⟨a, s1, h1⟩ := step_enabled P s inv hc hpc
      have hrem := remaining_step P s s1 a h1
      obtain ⟨sched, s2, h2, hfin⟩ := ih s1 (by omega) (Inv_step P s s1 a inv h1)
      exact ⟨a :: sched, s2, by simp only [exec, h1, h2], hfin⟩

/-- With a bin to map and a semaphore of capacity below 1 nothing ever
happens: the first `sem.Acquire` blocks and there is no goroutine yet. -/
theorem exec_stuck (P : PhaseSetup) (bins : List (List inputSplit))
    (hb : P.inputBins = some bins) (hne : bins ≠ []) (hc : P.MaxConcurrency < 1) :
    ∀ (sched : List Actor) (s : PhaseState),
      exec P (PhaseState.init P) sched = some s → s = PhaseState.init P := by
  intro sched s h
  cases sched with
  | nil =>
    simp only [exec, Option.some.injEq] at h
    exact h.symm
  | cons a sched =>
    have hlen : 0 < P.bins.length := by
      simp only [PhaseSetup.bins, hb, Option.getD_some]
      exact List.length_pos.mpr hne
    have hstep : step P (PhaseState.init P) a = none := by
      cases a with
      | main =>
        simp [step, stepMain, PhaseState.init, hb, hlen, hc]
      | mapper j => simp [step, stepMapper, PhaseState.init]
      | reducer j => simp [step, stepReducer, PhaseState.init]
    simp [exec, hstep] at h

/-- The summary of the map phase that `run` uses agrees with the machine:
when the summary says the call returns, it lists the mappers of the bins and
the machine can run to its end; when it says the call blocks, it lists no
mapper and the machine cannot leave its initial state. -/
theorem runMapPhase_sound (env : Env) (d : Driver) (job : Job) (jobNumber : Nat)
    (inputs : List String) (mapErr reduceErr : Nat → Bool) :
    ((runMapPhase env d job jobNumber inputs).2 = true →
        (runMapPhase env d job jobNumber inputs).1
            = mapTasks jobNumber (phaseSetup env d job jobNumber inputs mapErr reduceErr).bins
          ∧ ∃ sched s,
              exec (phaseSetup env d job jobNumber inputs mapErr reduceErr)
                (PhaseState.init (phaseSetup env d job jobNumber inputs mapErr reduceErr)) sched
                = some s
              ∧ s.pc = PC.finished)
      ∧ ((runMapPhase env d job jobNumber inputs).2 = false →
          (runMapPhase env d job jobNumber inputs).1 = []
            ∧ ∀ sched s,
                exec (phaseSetup env d job jobNumber inputs mapErr reduceErr)
                  (PhaseState.init (phaseSetup env d job jobNumber inputs mapErr reduceErr))
                  sched = some s →
                s = PhaseState.init (phaseSetup env d job jobNumber inputs mapErr reduceErr)) := by
  have hlive : ∀ P : PhaseSetup, (P.bins = [] ∨ 1 ≤ P.MaxConcurrency) →
      ∃ sched s, exec P (PhaseState.init P) sched = some s ∧ s.pc = PC.finished :=
    fun P h => exec_to_finished P h _ _ (le_refl _) (Inv_init P)
  cases hb : mapBins env d job inputs with
  | none =>
    have hbins : (phaseSetup env d job jobNumber inputs mapErr reduceErr).bins = [] := by
      simp [phaseSetup, PhaseSetup.bins, hb]
    constructor
    · intro _
      refine ⟨?_, hlive _ (Or.inl hbins)⟩
      rw [hbins]
      simp [runMapPhase, hb, mapTasks]
    · intro h
      simp [runMapPhase, hb] at h
  | some bins =>
    have hbins : (phaseSetup env d job jobNumber inputs mapErr reduceErr).bins = bins := by
      simp [phaseSetup, PhaseSetup.bins, hb]
    by_cases hret : bins.length = 0 ∨ 1 ≤ d.config.MaxConcurrency
    · constructor
      · intro _
        refine ⟨?_, hlive _ ?_⟩
        · rw [hbins]
          simp only [runMapPhase, hb, if_pos hret]
        · rcases hret with h | h
          · left
            rw [hbins]
            exact List.length_eq_zero.mp h
          · right
            exact h
      · intro h
        simp only [runMapPhase, hb, if_pos hret] at h
        simp at h
    · constructor
      · intro h
        simp only [runMapPhase, hb, if_neg hret] at h
        simp at h
      · intro _
        refine ⟨by simp only [runMapPhase, hb, if_neg hret], ?_⟩
        have hne : bins ≠ [] := by
          intro h
          exact hret (Or.inl (by rw [h]; rfl))
        have hlt : d.config.MaxConcurrency < 1 := by
          have : ¬ 1 ≤ d.config.MaxConcurrency := fun h => hret (Or.inr h)
          omega
        exact exec_stuck _ bins (by simp [phaseSetup, hb]) hne hlt

/-! ## The calls made by the two phases -/

theorem countP_enum {α : Type} [DecidableEq α] (l : List α) (b : Nat) (a : α) :
    l.enum.countP (fun p => decide (p = (b, a))) = if l[b]? = some a then 1 else 0 := by
  have hnd : l.enum.Nodup := List.Nodup.of_map Prod.fst (List.nodup_enum_map_fst l)
  have h := @List.count_eq_of_nodup (Nat × α) _ (b, a) l.enum hnd
  simp only [List.mk_mem_enum_iff_getElem?] at h
  rw [← h]
  rfl

theorem count_range (r b : Nat) : (List.range r).count b = if b < r then 1 else 0 := by
  rw [List.count_eq_of_nodup (List.nodup_range r)]
  simp only [List.mem_range]

/-- Once `runMapPhase` has returned, `RunMapper` has been called exactly once
for each bin, with the position of the bin as its id. -/
theorem calls_count_mapper (P : PhaseSetup) (s : PhaseState) (inv : Inv P s)
    (hr : s.pc.inReduce = true) (b : Nat) (bin : List inputSplit) :
    s.calls.count (Event.RunMapper P.jobNumber b bin)
      = if P.bins[b]? = some bin then 1 else 0 := by
  have hdone := inv.mapsDone hr
  have hlen : s.mappers.length = P.bins.length := by
    have := inv.lenM
    cases hp : s.pc <;> rw [hp] at hr this <;> simp [PC.inReduce] at hr <;>
      simpa [PC.mappersStarted] using this
  have hargs : s.mappers.map (fun t => (t.bID, t.b)) = P.bins.enum := by
    rw [inv.argsM, hlen]
    exact List.take_of_length_le (by simp)
  rw [inv.calls]
  have hred : s.reducers.countP
      (fun t => t.phase.started
        && (Event.RunReducer P.jobNumber t.bID == Event.RunMapper P.jobNumber b bin)) = 0 := by
    rw [List.countP_eq_zero]
    intro t _
    simp
  have hmap : s.mappers.countP
      (fun t => t.phase.started
        && (Event.RunMapper P.jobNumber t.bID t.b == Event.RunMapper P.jobNumber b bin))
      = (s.mappers.map (fun t => (t.bID, t.b))).countP
          (fun p => decide (p = (b, bin))) := by
    rw [List.countP_map]
    apply List.countP_congr
    intro t ht
    have := hdone t ht
    simp [this, TaskPhase.started]
  rw [hred, hmap, hargs, countP_enum]
  simp

/-- Once `runReducePhase` has returned, `RunReducer` has been called exactly
once for each id below `job.intermediateBins`. -/
theorem calls_count_reducer (P : PhaseSetup) (s : PhaseState) (inv : Inv P s)
    (hfin : s.pc = PC.finished) (b : Nat) :
    s.calls.count (Event.RunReducer P.jobNumber b)
      = if b < P.intermediateBins then 1 else 0 := by
  have hdone := inv.finDone hfin
  have hlen : s.reducers.length = P.intermediateBins := by
    have := inv.lenR
    rw [hfin] at this
    simpa [PC.reducersStarted] using this
  have hargs : s.reducers.map (fun t => t.bID) = List.range P.intermediateBins := by
    rw [inv.argsR, hlen]
  rw [inv.calls]
  have hmap : s.mappers.countP
      (fun t => t.phase.started
        && (Event.RunMapper P.jobNumber t.bID t.b == Event.RunReducer P.jobNumber b)) = 0 := by
    rw [List.countP_eq_zero]
    intro t _
    simp
  have hred : s.reducers.countP
      (fun t => t.phase.started
        && (Event.RunReducer P.jobNumber t.bID == Event.RunReducer P.jobNumber b))
      = (s.reducers.map (fun t => t.bID)).count b := by
    rw [List.count_eq_countP, List.countP_map]
    apply List.countP_congr
    intro t ht
    have := hdone t ht
    simp [this, TaskPhase.started]
  rw [hmap, hred, hargs, count_range]
  simp

/-- Every call made is a call of a task of this job: `RunMapper` on a bin
with its position as id, or `RunReducer` on an id below
`job.intermediateBins`. -/
theorem calls_are_tasks (P : PhaseSetup) (s : PhaseState) (inv : Inv P s) :
    ∀ e ∈ s.calls,
      e ∈ mapTasks P.jobNumber P.bins ++ reduceTasks P.jobNumber P.intermediateBins := by
  intro e he
  have hpos : 0 < s.calls.count e := List.count_pos_iff.mpr he
  rw [inv.calls] at hpos
  rw [List.mem_append]
  by_cases hm : 0 < s.mappers.countP
      (fun t => t.phase.started && (Event.RunMapper P.jobNumber t.bID t.b == e))
  · left
    rw [List.countP_pos_iff] at hm
    obtain ⟨t, ht, hp⟩ := hm
    simp only [Bool.and_eq_true, beq_iff_eq] at hp
    have hmem : (t.bID, t.b) ∈ s.mappers.map (fun t => (t.bID, t.b)) :=
      List.mem_map.mpr ⟨t, ht, rfl⟩
    rw [inv.argsM] at hmem
    have hmem2 := List.mem_of_mem_take hmem
    rw [← hp.2]
    exact List.mem_map.mpr ⟨(t.bID, t.b), hmem2, rfl⟩
  · right
    have hr : 0 < s.reducers.countP
        (fun t => t.phase.started && (Event.RunReducer P.jobNumber t.bID == e)) := by omega
    rw [List.countP_pos_iff] at hr
    obtain ⟨t, ht, hp⟩ := hr
    simp only [Bool.and_eq_true, beq_iff_eq] at hp
    have hmem : t.bID ∈ s.reducers.map (fun t => t.bID) := List.mem_map.mpr ⟨t, ht, rfl⟩
    rw [inv.argsR, List.mem_range] at hmem
    have hlenR := inv.lenR
    have hv := inv.valid
    have hle : s.reducers.length ≤ P.intermediateBins := by
      cases hp : s.pc <;> rw [hp] at hlenR hv <;>
        simp only [PC.reducersStarted, PC.valid] at hlenR hv <;> omega
    rw [← hp.2]
    exact List.mem_map.mpr ⟨t.bID, List.mem_range.mpr (by omega), rfl⟩

/-! ## Claims about the phases -/

/-- C5: at every point of a map phase run with `MaxConcurrency = c ≥ 1`, for
every list of bins, the number of `RunMapper` calls that have begun and not
returned is at most `c`.  The units of the semaphore in use never exceed `c`;
they are the mapper goroutines that have not yet released their unit (each
was started after `sem.Acquire` and releases only after its call returned)
plus the unit acquired for a goroutine about to be started; every mapper in
its call is among these. -/
theorem C5_map_concurrency_cap (P : PhaseSetup) (s : PhaseState)
    (hc : 1 ≤ P.MaxConcurrency) (hs : Reachable P s) :
    (s.mappersInFlight : Int) ≤ P.MaxConcurrency
      ∧ s.semCur ≤ P.MaxConcurrency
      ∧ s.semCur = (s.mappers.countP (fun t => t.phase.holdsUnit) : Int) + s.pc.holdsUnit
      ∧ s.mappersInFlight ≤ s.mappers.countP (fun t => t.phase.holdsUnit) := by
  have inv := Inv_of_Reachable P s hs
  have hcap := inv.cap (by omega)
  have hsem := inv.sem
  have hle : s.mappersInFlight ≤ s.mappers.countP (fun t => t.phase.holdsUnit) := by
    unfold PhaseState.mappersInFlight
    apply List.countP_mono_left
    intro t _ ht
    simp only [beq_iff_eq] at ht
    rw [ht]
    rfl
  have hpc : 0 ≤ s.pc.holdsUnit := by
    cases s.pc <;> simp [PC.holdsUnit]
  refine ⟨?_, hcap, hsem, hle⟩
  have : (s.mappersInFlight : Int)
      ≤ (s.mappers.countP (fun t => t.phase.holdsUnit) : Int) := by exact_mod_cast hle
  omega

/-- C5 at a state of the two-bin map phase with capacity 1: the first mapper
is in its call and the calling goroutine waits for a unit. -/
theorem C5_map_concurrency_cap_witness :
    exec examplePhases (PhaseState.init examplePhases)
        [Actor.main, Actor.main, Actor.mapper 0] = some exampleMapState
      ∧ step examplePhases exampleMapState Actor.main = none
      ∧ (exampleMapState.mappersInFlight : Int) ≤ examplePhases.MaxConcurrency :=
  ⟨by decide, by decide,
   (C5_map_concurrency_cap examplePhases exampleMapState (by decide)
      ⟨[Actor.main, Actor.main, Actor.mapper 0], by decide⟩).1⟩

/-- C6 fails on the code: `runReducePhase` creates no semaphore.  With
`MaxConcurrency = 1` and two intermediate bins the calling goroutine starts
both reducers without waiting, and both `RunReducer` calls are in flight at
the same time. -/
theorem C6_reduce_phase_uncapped :
    exampleReducePhases.MaxConcurrency = 1
      ∧ (exec exampleReducePhases (PhaseState.init exampleReducePhases)
          [Actor.main, Actor.main, Actor.reducer 0, Actor.reducer 1]).map
            PhaseState.reducersInFlight = some 2 := by
  decide

/-- C7: for every job, no `RunReducer` call begins before every `RunMapper`
call of the job has returned.  `runMapPhase` returns only when it has started
one mapper per bin and all of them have run to their end; reducer goroutines
exist only after that; so whenever a reducer can take a step, or a call of
`RunReducer` is in the log, every mapper is done. -/
theorem C7_phase_barrier (P : PhaseSetup) (s : PhaseState) (hs : Reachable P s) :
    (s.pc.inReduce = true →
        s.mappers.map (fun t => (t.bID, t.b)) = P.bins.enum
          ∧ ∀ t ∈ s.mappers, t.phase = TaskPhase.done)
      ∧ (s.reducers ≠ [] → s.pc.inReduce = true)
      ∧ (∀ j s1, step P s (Actor.reducer j) = some s1 →
          s.mappers.map (fun t => (t.bID, t.b)) = P.bins.enum
            ∧ ∀ t ∈ s.mappers, t.phase = TaskPhase.done)
      ∧ (∀ binID, Event.RunReducer P.jobNumber binID ∈ s.calls →
          s.mappers.map (fun t => (t.bID, t.b)) = P.bins.enum
            ∧ ∀ t ∈ s.mappers, t.phase = TaskPhase.done) := by
  have inv := Inv_of_Reachable P s hs
  have h1 : s.pc.inReduce = true →
      s.mappers.map (fun t => (t.bID, t.b)) = P.bins.enum
        ∧ ∀ t ∈ s.mappers, t.phase = TaskPhase.done := by
    intro hr
    have hlen : s.mappers.length = P.bins.length := by
      have := inv.lenM
      cases hp : s.pc <;> rw [hp] at hr this <;> simp [PC.inReduce] at hr <;>
        simpa [PC.mappersStarted] using this
    refine ⟨?_, inv.mapsDone hr⟩
    rw [inv.argsM, hlen]
    exact List.take_of_length_le (by simp)
  have h2 : s.reducers ≠ [] → s.pc.inReduce = true := by
    intro hne
    have hlen := inv.lenR
    have hpos : 0 < s.reducers.length := List.length_pos.mpr hne
    cases hp : s.pc <;> rw [hp] at hlen <;> simp only [PC.reducersStarted] at hlen <;>
      first
        | rfl
        | omega
  refine ⟨h1, h2, ?_, ?_⟩
  · intro j s1 hstep
    apply h1
    apply h2
    intro hnil
    simp [step, stepReducer, hnil] at hstep
  · intro binID hmem
    apply h1
    apply h2
    intro hnil
    have hpos : 0 < s.calls.count (Event.RunReducer P.jobNumber binID) :=
      List.count_pos_iff.mpr hmem
    rw [inv.calls, hnil] at hpos
    have : s.mappers.countP
        (fun t => t.phase.started
          && (Event.RunMapper P.jobNumber t.bID t.b == Event.RunReducer P.jobNumber binID))
        = 0 := by
      rw [List.countP_eq_zero]
      intro t _
      simp
    rw [this] at hpos
    simp at hpos

/-- C7 at the state reached by running both mappers to their end and starting
reducer 0: both mappers are done. -/
theorem C7_phase_barrier_witness :
    exec examplePhases (PhaseState.init examplePhases) exampleSchedule
        = some exampleReduceState
      ∧ Event.RunReducer 0 0 ∈ exampleReduceState.calls
      ∧ ∀ t ∈ exampleReduceState.mappers, t.phase = TaskPhase.done :=
  ⟨by decide, by decide,
   ((C7_phase_barrier examplePhases exampleReduceState
      ⟨exampleSchedule, by decide⟩).2.2.2 0 (by decide)).2⟩

/-- C8, as amended: provided `MaxConcurrency ≥ 1` or the map phase has no bin
to dispatch, task errors never abort a phase.  For every assignment of error
or success results to the tasks (`P.mapErr`, `P.reduceErr`) and every state
the phases can be in: the phases
can always be run on until `runReducePhase` has returned, and every step
uses up one of a finite number of remaining steps; every call made is a call
of `RunMapper` on a bin of `packInputSplits` with the position of the bin as
id, or of `RunReducer` on an id below `job.intermediateBins`; once
`runMapPhase` has returned `RunMapper` has been called exactly once for each
bin, and once `runReducePhase` has returned `RunReducer` has been called
exactly once for each id.  None of this mentions the results of the tasks. -/
theorem C8_phases_drain (P : PhaseSetup) (s : PhaseState)
    (hc : P.bins = [] ∨ 1 ≤ P.MaxConcurrency) (hs : Reachable P s) :
    (∃ sched s1, exec P s sched = some s1 ∧ s1.pc = PC.finished)
      ∧ (∀ a s1, step P s a = some s1 → s1.remaining P + 1 = s.remaining P)
      ∧ (∀ e ∈ s.calls,
          e ∈ mapTasks P.jobNumber P.bins ++ reduceTasks P.jobNumber P.intermediateBins)
      ∧ (s.pc.inReduce = true → ∀ binID bin,
          s.calls.count (Event.RunMapper P.jobNumber binID bin)
            = if P.bins[binID]? = some bin then 1 else 0)
      ∧ (s.pc = PC.finished → ∀ binID,
          s.calls.count (Event.RunReducer P.jobNumber binID)
            = if binID < P.intermediateBins then 1 else 0) := by
  have inv := Inv_of_Reachable P s hs
  exact ⟨exec_to_finished P hc (s.remaining P) s (le_refl _) inv,
    fun a s1 h => remaining_step P s s1 a h,
    calls_are_tasks P s inv,
    fun hr b bin => calls_count_mapper P s inv hr b bin,
    fun hfin b => calls_count_reducer P s inv hfin b⟩

/-- C8 at the two-bin job with capacity 1, whose first mapper returns an
error: from the start the phases can be run until `runReducePhase` has
returned. -/
theorem C8_phases_drain_witness :
    examplePhases.mapErr 0 = true
      ∧ ∃ sched s1, exec examplePhases (PhaseState.init examplePhases) sched = some s1
          ∧ s1.pc = PC.finished :=
  ⟨by decide,
   (C8_phases_drain examplePhases (PhaseState.init examplePhases) (Or.inr (by decide))
      ⟨[], rfl⟩).1⟩

/-- C8 as stated fails: with `MaxConcurrency = 0` and two bins the calling
goroutine cannot take its first step, no schedule makes `runMapPhase` return
and `RunMapper` is called for no bin. -/
theorem C8_phases_drain_counterexample :
    examplePhasesZero.MaxConcurrency = 0
      ∧ examplePhasesZero.bins.length = 2
      ∧ step examplePhasesZero (PhaseState.init examplePhasesZero) Actor.main = none
      ∧ ¬ ∃ sched s, exec examplePhasesZero (PhaseState.init examplePhasesZero) sched = some s
          ∧ (s.pc.inReduce = true ∨ s.calls ≠ []) := by
  refine ⟨by decide, by decide, by decide, ?_⟩
  rintro ⟨sched, s, hexec, hbad⟩
  have := exec_stuck examplePhasesZero _ rfl (by decide) (by decide) sched s hexec
  subst this
  rcases hbad with h | h
  · exact absurd h (by decide)
  · exact h rfl

end Corral
